import Mathlib

/-!
Verification development for the Redfish OpenAPI aggregation scripts:
`scripts/merge-redfish-openapi.py`, `openapi/infra/metadata-generate.py`
and `openapi/infra/add-basic-auth.py`.

Strings are modelled as `List Char`; Python string operations (`in`,
`startswith`, `split`, `re.sub`, `re.match`, `re.search`) are embedded as
executable functions on character lists with the same semantics on the
patterns the scripts use.  YAML documents are modelled by the inductive
`Yaml` tree; Python `dict`s become insertion-ordered association lists,
matching CPython's ordered-dict semantics.
-/

namespace Redfish

/-- Regex class `\w` (ASCII range; the schema identifiers the scripts
process are ASCII). -/
def isWordChar (c : Char) : Bool := c.isAlphanum || c = '_'

/-- Maximal run of leading decimal digits (`\d+` with greedy matching),
together with the remainder of the list. -/
def takeDigits : List Char → List Char × List Char
  | [] => ([], [])
  | c :: t =>
    if c.isDigit then
      let p := takeDigits t
      (c :: p.1, p.2)
    else ([], c :: t)

theorem takeDigits_append : ∀ s : List Char, (takeDigits s).1 ++ (takeDigits s).2 = s := by
  intro s
  induction s with
  | nil => rfl
  | cons c t ih =>
    by_cases hc : c.isDigit = true
    · simp [takeDigits, hc]
      exact ih
    · simp [takeDigits, hc]

/-- Match the regex `_v\d+_\d+_\d+_` at the head of the list
(the version-token pattern of `remove_version_from_schema_name` and of
`extract_versioned_namespaces`).  On success returns the captured digit
block `\d+_\d+_\d+` and the remainder after the final underscore. -/
def matchVersionG (s : List Char) : Option (List Char × List Char) :=
  match s with
  | '_' :: 'v' :: r0 =>
    match takeDigits r0 with
    | (a :: d1, '_' :: r2) =>
      match takeDigits r2 with
      | (b :: d2, '_' :: r4) =>
        match takeDigits r4 with
        | (e :: d3, '_' :: r6) =>
          some ((a :: d1) ++ '_' :: (b :: d2) ++ '_' :: (e :: d3), r6)
        | _ => none
      | _ => none
    | _ => none
  | _ => none

/-- Remainder-only form of the version-token matcher. -/
def matchVersion (s : List Char) : Option (List Char) := (matchVersionG s).map Prod.snd

/-- A successful version-token match consumes at least eight characters and
leaves a suffix of the input. -/
theorem matchVersionG_spec {s : List Char} {d r : List Char}
    (h : matchVersionG s = some (d, r)) : r <:+ s ∧ r.length + 8 ≤ s.length := by
  unfold matchVersionG at h
  split at h
  case h_2 => exact absurd h (by simp)
  case h_1 r0 =>
    split at h
    case h_2 => exact absurd h (by simp)
    case h_1 a d1 r2 heq1 =>
      split at h
      case h_2 => exact absurd h (by simp)
      case h_1 b d2 r4 heq2 =>
        split at h
        case h_2 => exact absurd h (by simp)
        case h_1 e d3 r6 heq3 =>
          simp only [Option.some.injEq, Prod.mk.injEq] at h
          obtain ⟨hd, hr⟩ := h
          subst hr
          have e0 := takeDigits_append r0
          have e2 := takeDigits_append r2
          have e4 := takeDigits_append r4
          rw [heq1] at e0
          rw [heq2] at e2
          rw [heq3] at e4
          -- s = '_' :: 'v' :: ((a :: d1) ++ '_' :: ((b :: d2) ++ '_' :: ((e :: d3) ++ '_' :: r6)))
          rw [← e0, ← e2, ← e4]
          constructor
          · refine ⟨'_' :: 'v' :: (a :: d1) ++ '_' :: (b :: d2) ++ '_' :: (e :: d3) ++ ['_'], ?_⟩
            simp
          · simp
            omega

theorem matchVersion_spec {s r : List Char} (h : matchVersion s = some r) :
    r <:+ s ∧ r.length + 8 ≤ s.length := by
  unfold matchVersion at h
  cases hg : matchVersionG s with
  | none => rw [hg] at h; exact absurd h (by simp)
  | some p =>
    rw [hg] at h
    simp at h
    subst h
    exact matchVersionG_spec (s := s) (d := p.1) (by rw [hg])

/-- Fueled worker for `re.sub(r'_v\d+_\d+_\d+_', '_', s)`: scan left to
right, replace each leftmost non-overlapping match of the version token by
a single underscore and continue after the match. -/
def removeVersionFuel : Nat → List Char → List Char
  | 0, s => s
  | _ + 1, [] => []
  | n + 1, c :: t =>
    match matchVersion (c :: t) with
    | some r => '_' :: removeVersionFuel n r
    | none => c :: removeVersionFuel n t

/-- `remove_version_from_schema_name` (merge-redfish-openapi.py lines 8-12):
`re.sub(r'_v\d+_\d+_\d+_', '_', schema_name)`. -/
def removeVersionL (s : List Char) : List Char := removeVersionFuel s.length s

theorem removeVersionFuel_irrel : ∀ (n m : Nat) (s : List Char),
    s.length ≤ n → s.length ≤ m → removeVersionFuel n s = removeVersionFuel m s := by
  intro n
  induction n with
  | zero =>
    intro m s hn _
    have : s = [] := List.eq_nil_of_length_eq_zero (Nat.le_zero.mp hn)
    subst this
    cases m <;> rfl
  | succ n ih =>
    intro m s hn hm
    cases s with
    | nil => cases m <;> rfl
    | cons c t =>
      cases m with
      | zero => simp at hm
      | succ m =>
        simp only [removeVersionFuel]
        cases hmv : matchVersion (c :: t) with
        | some r =>
          have h8 := (matchVersion_spec hmv).2
          simp only [List.length_cons] at hn hm h8
          show '_' :: removeVersionFuel n r = '_' :: removeVersionFuel m r
          rw [ih m r (by omega) (by omega)]
        | none =>
          simp only [List.length_cons] at hn hm
          show c :: removeVersionFuel n t = c :: removeVersionFuel m t
          rw [ih m t (by omega) (by omega)]

/-- One-step unfolding of `removeVersionL` at a cons cell. -/
theorem removeVersionL_cons (c : Char) (t : List Char) :
    removeVersionL (c :: t) =
      match matchVersion (c :: t) with
      | some r => '_' :: removeVersionL r
      | none => c :: removeVersionL t := by
  unfold removeVersionL
  simp only [List.length_cons, removeVersionFuel]
  cases hmv : matchVersion (c :: t) with
  | some r =>
    have h8 := (matchVersion_spec hmv).2
    simp only [List.length_cons] at h8
    show '_' :: removeVersionFuel t.length r = '_' :: removeVersionFuel r.length r
    rw [removeVersionFuel_irrel t.length r.length r (by omega) (by omega)]
  | none => rfl

theorem removeVersionL_nil : removeVersionL [] = [] := rfl

/-- Does any position of the string start a version-token match?  (Used to
state "identifier with no version token".) -/
def hasVersionToken : List Char → Bool
  | [] => false
  | c :: t => (matchVersion (c :: t)).isSome || hasVersionToken t

/-- A token-free identifier is returned unchanged by the normalizer. -/
theorem removeVersionL_of_no_token : ∀ {s : List Char},
    hasVersionToken s = false → removeVersionL s = s := by
  intro s
  induction s with
  | nil => intro _; rfl
  | cons c t ih =>
    intro h
    simp only [hasVersionToken, Bool.or_eq_false_iff] at h
    rw [removeVersionL_cons]
    cases hmv : matchVersion (c :: t) with
    | some r => rw [hmv] at h; simp at h
    | none =>
      show c :: removeVersionL t = c :: t
      rw [ih h.2]

/-- Python `s.split(sep)[-1]` for a non-empty separator with no
self-overlap (the separators used by the scripts are overlap-free): the
suffix after the rightmost occurrence of `sep`, or the whole string when
`sep` does not occur. -/
def afterLast (sep : List Char) : List Char → List Char
  | [] => []
  | c :: t =>
    if sep <:+: t then afterLast sep t
    else if sep.isPrefixOf (c :: t) then (c :: t).drop sep.length
    else c :: t

/-- The last split segment never contains the separator. -/
theorem afterLast_no_sep {sep : List Char} (hsep : sep ≠ []) :
    ∀ s : List Char, ¬ sep <:+: afterLast sep s := by
  intro s
  induction s with
  | nil =>
    simp only [afterLast, List.infix_nil]
    exact hsep
  | cons c t ih =>
    by_cases h1 : sep <:+: t
    · simpa [afterLast, h1] using ih
    · by_cases h2 : sep.isPrefixOf (c :: t)
      · simp only [afterLast, h1, h2, if_true, if_false]
        intro hcon
        obtain ⟨k, hk⟩ : ∃ k, sep.length = k + 1 := by
          cases hsl : sep.length with
          | zero => exact absurd (List.eq_nil_of_length_eq_zero hsl) hsep
          | succ k => exact ⟨k, rfl⟩
        rw [hk, List.drop_succ_cons] at hcon
        exact h1 (hcon.trans (List.drop_suffix k t).isInfix)
      · simp only [afterLast, h1, h2, if_false]
        intro hcon
        rcases List.infix_cons_iff.mp hcon with hpre | hinf
        · exact h2 (List.isPrefixOf_iff_prefix.mpr hpre)
        · exact h1 hinf

/-- No occurrence of `c₀ :: rest` can straddle the boundary in
`rest ++ b` when `c₀` does not occur in `rest` and the separator does not
occur in `b`. -/
theorem no_straddle {c₀ : Char} {rest b : List Char}
    (hb : ¬ (c₀ :: rest) <:+: b) (hc : c₀ ∉ rest) : ¬ (c₀ :: rest) <:+: (rest ++ b) := by
  rintro ⟨u, w, huw⟩
  -- u ++ (c₀ :: rest) ++ w = rest ++ b
  rw [List.append_assoc] at huw
  rcases List.append_eq_append_iff.mp huw with ⟨x, hx1, hx2⟩ | ⟨y, hy1, hy2⟩
  · -- rest = u ++ x and (c₀ :: rest) ++ w = x ++ b
    rcases List.append_eq_append_iff.mp hx2 with ⟨p, hp1, hp2⟩ | ⟨q, hq1, hq2⟩
    · -- x = (c₀ :: rest) ++ p : then c₀ ∈ x ⊆ rest
      have hxs : x <:+ rest := ⟨u, hx1.symm⟩
      have : c₀ ∈ x := by
        rw [hp1]
        exact List.mem_append.mpr (Or.inl (List.mem_cons_self _ _))
      exact hc (hxs.subset this)
    · -- c₀ :: rest = x ++ q and b = q ++ w
      cases x with
      | nil =>
        -- q = c₀ :: rest, so b = (c₀ :: rest) ++ w
        simp only [List.nil_append] at hq1
        refine hb ⟨[], w, ?_⟩
        subst hq2
        rw [← hq1]
        simp
      | cons xh xt =>
        have hxs : (xh :: xt) <:+ rest := ⟨u, hx1.symm⟩
        have hxh : xh = c₀ := by
          have := congrArg (List.head? ·) hq1
          simpa using this.symm
        have : c₀ ∈ xh :: xt := by rw [hxh]; exact List.mem_cons_self _ _
        exact hc (hxs.subset this)
  · -- u = rest ++ y and b = y ++ (c₀ :: rest) ++ w : separator occurs in b
    exact hb ⟨y, w, by rw [hy2, List.append_assoc]⟩

/-- `split(sep)[-1]` of `a ++ sep ++ b` is `b` whenever the separator does
not occur in `b`, for a separator whose head character does not recur
inside it. -/
theorem afterLast_append {c₀ : Char} {rest b : List Char}
    (hb : ¬ (c₀ :: rest) <:+: b) (hc : c₀ ∉ rest) :
    ∀ a : List Char, afterLast (c₀ :: rest) (a ++ (c₀ :: rest) ++ b) = b := by
  intro a
  induction a with
  | nil =>
    simp only [List.nil_append, List.cons_append]
    show afterLast (c₀ :: rest) (c₀ :: (rest ++ b)) = b
    have hns := no_straddle hb hc
    have hpre : (c₀ :: rest).isPrefixOf (c₀ :: (rest ++ b)) = true := by
      rw [List.isPrefixOf_iff_prefix]
      show (c₀ :: rest) <+: ((c₀ :: rest) ++ b)
      exact List.prefix_append _ _
    simp only [afterLast, hns, hpre, if_false, if_true]
    show ((c₀ :: rest) ++ b).drop (c₀ :: rest).length = b
    exact List.drop_left _ _
  | cons x a' ih =>
    have hinf : (c₀ :: rest) <:+: (a' ++ (c₀ :: rest) ++ b) := ⟨a', b, rfl⟩
    have hstep : afterLast (c₀ :: rest) (x :: (a' ++ (c₀ :: rest) ++ b)) =
        afterLast (c₀ :: rest) (a' ++ (c₀ :: rest) ++ b) := by
      simp only [afterLast]
      rw [if_pos hinf]
    simp only [List.cons_append]
    show afterLast (c₀ :: rest) (x :: (a' ++ (c₀ :: rest) ++ b)) = b
    rw [hstep]
    exact ih

/-- An underscore-free prefix of the version-normalized string is already a
prefix of the original string (the normalizer only ever exposes an
underscore at a rewrite site). -/
theorem prefix_of_removeVersion : ∀ (u q : List Char), '_' ∉ q →
    q <+: removeVersionL u → q <+: u
  | [], q, _, hp => by simpa [removeVersionL_nil] using hp
  | c :: t, q, hq, hp => by
    rw [removeVersionL_cons] at hp
    cases hmv : matchVersion (c :: t) with
    | some r =>
      rw [hmv] at hp
      cases q with
      | nil => exact List.nil_prefix
      | cons qh qt =>
        rcases List.cons_prefix_cons.mp hp with ⟨h1, _⟩
        subst h1
        exact absurd (List.mem_cons_self _ _) hq
    | none =>
      rw [hmv] at hp
      cases q with
      | nil => exact List.nil_prefix
      | cons qh qt =>
        rcases List.cons_prefix_cons.mp hp with ⟨h1, h2⟩
        subst h1
        have hqt : '_' ∉ qt := fun hm => hq (List.mem_cons_of_mem _ hm)
        exact List.cons_prefix_cons.mpr ⟨rfl, prefix_of_removeVersion t qt hqt h2⟩

/-- Version-token removal cannot create a new occurrence of an
underscore-free pattern. -/
theorem not_infix_removeVersion : ∀ (u : List Char) (p₀ : Char) (ps : List Char),
    '_' ∉ (p₀ :: ps) → ¬ (p₀ :: ps) <:+: u → ¬ (p₀ :: ps) <:+: removeVersionL u
  | [], p₀, ps, _, hu => by rw [removeVersionL_nil]; exact hu
  | c :: t, p₀, ps, hp, hu => by
    rw [removeVersionL_cons]
    cases hmv : matchVersion (c :: t) with
    | some r =>
      intro hcon
      rcases List.infix_cons_iff.mp hcon with hpre | hinf
      · rcases List.cons_prefix_cons.mp hpre with ⟨h1, _⟩
        refine hp ?_
        rw [h1]
        exact List.mem_cons_self _ _
      · have hsuf := (matchVersion_spec hmv).1
        have hr : ¬ (p₀ :: ps) <:+: r := fun hx => hu (hx.trans hsuf.isInfix)
        have hlen : r.length < (c :: t).length := by
          have h8 := (matchVersion_spec hmv).2
          simp only [List.length_cons] at h8 ⊢
          omega
        exact not_infix_removeVersion r p₀ ps hp hr hinf
    | none =>
      intro hcon
      rcases List.infix_cons_iff.mp hcon with hpre | hinf
      · rcases List.cons_prefix_cons.mp hpre with ⟨h1, h2⟩
        have hps : '_' ∉ ps := fun hm => hp (List.mem_cons_of_mem _ hm)
        have h3 := prefix_of_removeVersion t ps hps h2
        refine hu (List.infix_cons_iff.mpr (Or.inl ?_))
        exact List.cons_prefix_cons.mpr ⟨h1, h3⟩
      · have ht : ¬ (p₀ :: ps) <:+: t := fun hx =>
          hu (List.infix_cons_iff.mpr (Or.inr hx))
        exact not_infix_removeVersion t p₀ ps hp ht hinf
termination_by u => u.length
decreasing_by
  all_goals simp only [List.length_cons] at *
  all_goals omega

/-! ### YAML document trees and CPython ordered-dict operations -/

/-- A YAML document as loaded by `yaml.safe_load`: scalars, sequences and
(insertion-ordered) mappings.  Mapping keys are strings, which is the only
key type the scripts ever test against. -/
inductive Yaml where
  | str (s : String)
  | num (n : Int)
  | bool (b : Bool)
  | null
  | seq (items : List Yaml)
  | map (entries : List (String × Yaml))

/-- Python `d[k]` / `d.get(k)` on an insertion-ordered dict. -/
def lookupD : List (String × Yaml) → String → Option Yaml
  | [], _ => none
  | (k, v) :: t, key => if k = key then some v else lookupD t key

/-- Python `k in d`. -/
def hasKeyD (l : List (String × Yaml)) (k : String) : Bool := (lookupD l k).isSome

/-- Python `d[k] = v`: replace the value in place when the key is present,
append the pair otherwise (CPython preserves the original key position on
over-write). -/
def setKeyD : List (String × Yaml) → String → Yaml → List (String × Yaml)
  | [], key, v => [(key, v)]
  | (k, w) :: t, key, v => if k = key then (k, v) :: t else (k, w) :: setKeyD t key v

/-- Python `d.update(other)`. -/
def updateD (l other : List (String × Yaml)) : List (String × Yaml) :=
  other.foldl (fun acc kv => setKeyD acc kv.1 kv.2) l

/-- Python `del d[k]`. -/
def delKeyD : List (String × Yaml) → String → List (String × Yaml)
  | [], _ => []
  | (k, w) :: t, key => if k = key then t else (k, w) :: delKeyD t key

/-! ### The Reference Rewriter (`convert_file_refs_to_internal`) -/

/-- The internal-pointer separator `#/components/schemas/`. -/
def sepSchemas : List Char := ("#/components/schemas/").toList

/-- The tail of the separator, after its unique `#`. -/
def sepTail : List Char := ("/components/schemas/").toList

/-- The external-pointer marker `.yaml#/components/schemas/`. -/
def yamlSepSchemas : List Char := (".yaml#/components/schemas/").toList

/-- The file-extension fragment `.yaml`. -/
def yamlDot : List Char := (".yaml").toList

theorem sepSchemas_eq : sepSchemas = '#' :: sepTail := by decide

theorem yamlSepSchemas_eq : yamlSepSchemas = yamlDot ++ sepSchemas := by decide

/-- The `$ref`-string rewriting performed by `convert_file_refs_to_internal`
(merge-redfish-openapi.py lines 19-33): an external
`<file>.yaml#/components/schemas/<id>` pointer and an internal
`#/components/schemas/<id>` pointer are both rebuilt as
`#/components/schemas/` + the version-normalized last split segment;
every other value passes through. -/
def rewriteRefValue (v : String) : String :=
  if yamlSepSchemas <:+: v.toList then
    String.mk (sepSchemas ++ removeVersionL (afterLast sepSchemas v.toList))
  else if sepSchemas.isPrefixOf v.toList then
    String.mk (sepSchemas ++ removeVersionL (afterLast sepSchemas v.toList))
  else v

mutual
/-- `convert_file_refs_to_internal` (merge-redfish-openapi.py lines 14-40). -/
def convertRefs : Yaml → Yaml
  | .map l => .map (convertRefsMap l)
  | .seq l => .seq (convertRefsList l)
  | y => y

def convertRefsList : List Yaml → List Yaml
  | [] => []
  | y :: t => convertRefs y :: convertRefsList t

def convertRefsMap : List (String × Yaml) → List (String × Yaml)
  | [] => []
  | (k, v) :: t =>
    (k,
      if k = "$ref" then
        match v with
        | .str s => .str (rewriteRefValue s)
        | w => convertRefs w
      else convertRefs v) :: convertRefsMap t
end

mutual
/-- Does every string stored under a `$ref` key anywhere in the tree avoid
`pat` as a substring? -/
def refsAvoid (pat : List Char) : Yaml → Bool
  | .map l => refsAvoidMap pat l
  | .seq l => refsAvoidList pat l
  | _ => true

def refsAvoidList (pat : List Char) : List Yaml → Bool
  | [] => true
  | y :: t => refsAvoid pat y && refsAvoidList pat t

def refsAvoidMap (pat : List Char) : List (String × Yaml) → Bool
  | [] => true
  | (k, v) :: t =>
    (if k = "$ref" then
      match v with
      | .str s => ! decide (pat <:+: s.toList)
      | w => refsAvoid pat w
    else refsAvoid pat v) && refsAvoidMap pat t
end


/-- The last split segment, version-normalized, still avoids the
separator. -/
theorem clean_no_sep (s : List Char) :
    ¬ sepSchemas <:+: removeVersionL (afterLast sepSchemas s) := by
  have h1 : ¬ sepSchemas <:+: afterLast sepSchemas s :=
    afterLast_no_sep (by decide) s
  rw [sepSchemas_eq] at h1 ⊢
  exact not_infix_removeVersion _ _ _ (by decide) h1

/-- A rebuilt pointer `#/components/schemas/<clean>` never contains the
external marker `.yaml#/components/schemas/` when `<clean>` avoids the
separator. -/
theorem not_bad_in_result {clean : List Char} (h : ¬ sepSchemas <:+: clean) :
    ¬ yamlSepSchemas <:+: (sepSchemas ++ clean) := by
  rintro ⟨u, w, huw⟩
  rw [yamlSepSchemas_eq] at huw
  -- u ++ (yamlDot ++ sepSchemas) ++ w = sepSchemas ++ clean
  have huw' : (u ++ yamlDot) ++ (sepSchemas ++ w) = sepSchemas ++ clean := by
    rw [← huw]; simp [List.append_assoc]
  rcases List.append_eq_append_iff.mp huw' with ⟨x, hx1, _⟩ | ⟨y, hy1, hy2⟩
  · -- sepSchemas = (u ++ yamlDot) ++ x : ".yaml" occurs inside the separator
    have : yamlDot <:+: sepSchemas := ⟨u, x, by rw [hx1]⟩
    exact absurd this (by decide)
  · -- clean = y ++ sepSchemas ++ w : separator occurs in clean
    exact h ⟨y, w, by rw [hy2]; simp [List.append_assoc]⟩

/-- Any output of the `$ref` rewriting is free of the external marker. -/
theorem rewriteRefValue_avoids (s : String) :
    ¬ yamlSepSchemas <:+: (rewriteRefValue s).toList := by
  unfold rewriteRefValue
  by_cases h1 : yamlSepSchemas <:+: s.toList
  · rw [if_pos h1]
    exact not_bad_in_result (clean_no_sep s.toList)
  · rw [if_neg h1]
    by_cases h2 : sepSchemas.isPrefixOf s.toList
    · rw [if_pos h2]
      exact not_bad_in_result (clean_no_sep s.toList)
    · rw [if_neg h2]
      exact h1

/-- Entry-level form of the rewriting: a string under a `$ref` key is
rewritten, anything else is recursed into. -/
def convertEntry (k : String) (v : Yaml) : Yaml :=
  if k = "$ref" then
    match v with
    | .str s => .str (rewriteRefValue s)
    | w => convertRefs w
  else convertRefs v

/-- Entry-level form of `refsAvoidMap`. -/
def refsAvoidEntry (pat : List Char) (k : String) (v : Yaml) : Bool :=
  if k = "$ref" then
    match v with
    | .str s => ! decide (pat <:+: s.toList)
    | w => refsAvoid pat w
  else refsAvoid pat v

theorem convertRefsMap_cons (k : String) (v : Yaml) (t : List (String × Yaml)) :
    convertRefsMap ((k, v) :: t) = (k, convertEntry k v) :: convertRefsMap t := by
  cases v with
  | str s => rw [convertRefsMap.eq_2]; rfl
  | num n => rw [convertRefsMap.eq_3 _ _ _ (fun _ h => Yaml.noConfusion h)]; rfl
  | bool b => rw [convertRefsMap.eq_3 _ _ _ (fun _ h => Yaml.noConfusion h)]; rfl
  | null => rw [convertRefsMap.eq_3 _ _ _ (fun _ h => Yaml.noConfusion h)]; rfl
  | seq l => rw [convertRefsMap.eq_3 _ _ _ (fun _ h => Yaml.noConfusion h)]; rfl
  | map l => rw [convertRefsMap.eq_3 _ _ _ (fun _ h => Yaml.noConfusion h)]; rfl

theorem refsAvoidMap_cons (pat : List Char) (k : String) (v : Yaml)
    (t : List (String × Yaml)) :
    refsAvoidMap pat ((k, v) :: t) = (refsAvoidEntry pat k v && refsAvoidMap pat t) := by
  cases v with
  | str s => rw [refsAvoidMap.eq_2]; rfl
  | num n => rw [refsAvoidMap.eq_3 _ _ _ _ (fun _ h => Yaml.noConfusion h)]; rfl
  | bool b => rw [refsAvoidMap.eq_3 _ _ _ _ (fun _ h => Yaml.noConfusion h)]; rfl
  | null => rw [refsAvoidMap.eq_3 _ _ _ _ (fun _ h => Yaml.noConfusion h)]; rfl
  | seq l => rw [refsAvoidMap.eq_3 _ _ _ _ (fun _ h => Yaml.noConfusion h)]; rfl
  | map l => rw [refsAvoidMap.eq_3 _ _ _ _ (fun _ h => Yaml.noConfusion h)]; rfl

/-- The rewriting of one dict entry yields an entry whose `$ref` strings all
avoid the external marker, given the result for the value's own subtrees. -/
theorem refsAvoidEntry_convertEntry (k : String) (v : Yaml)
    (h1 : refsAvoid yamlSepSchemas (convertRefs v) = true) :
    refsAvoidEntry yamlSepSchemas k (convertEntry k v) = true := by
  by_cases hk : k = "$ref"
  · cases v with
    | str s =>
      show refsAvoidEntry yamlSepSchemas k
        (if k = "$ref" then Yaml.str (rewriteRefValue s) else convertRefs (Yaml.str s)) = true
      rw [if_pos hk]
      show (if k = "$ref" then ! decide (yamlSepSchemas <:+: (rewriteRefValue s).toList)
        else refsAvoid yamlSepSchemas (Yaml.str (rewriteRefValue s))) = true
      rw [if_pos hk]
      simp only [Bool.not_eq_eq_eq_not, Bool.not_true, decide_eq_false_iff_not]
      exact rewriteRefValue_avoids s
    | num n =>
      show refsAvoidEntry yamlSepSchemas k
        (if k = "$ref" then convertRefs (Yaml.num n) else convertRefs (Yaml.num n)) = true
      rw [ite_self]
      show (if k = "$ref" then refsAvoid yamlSepSchemas (convertRefs (Yaml.num n))
        else refsAvoid yamlSepSchemas (convertRefs (Yaml.num n))) = true
      rw [ite_self]
      exact h1
    | bool b =>
      show refsAvoidEntry yamlSepSchemas k
        (if k = "$ref" then convertRefs (Yaml.bool b) else convertRefs (Yaml.bool b)) = true
      rw [ite_self]
      show (if k = "$ref" then refsAvoid yamlSepSchemas (convertRefs (Yaml.bool b))
        else refsAvoid yamlSepSchemas (convertRefs (Yaml.bool b))) = true
      rw [ite_self]
      exact h1
    | null =>
      show refsAvoidEntry yamlSepSchemas k
        (if k = "$ref" then convertRefs Yaml.null else convertRefs Yaml.null) = true
      rw [ite_self]
      show (if k = "$ref" then refsAvoid yamlSepSchemas (convertRefs Yaml.null)
        else refsAvoid yamlSepSchemas (convertRefs Yaml.null)) = true
      rw [ite_self]
      exact h1
    | seq l =>
      show refsAvoidEntry yamlSepSchemas k
        (if k = "$ref" then convertRefs (Yaml.seq l) else convertRefs (Yaml.seq l)) = true
      rw [ite_self]
      show (if k = "$ref" then refsAvoid yamlSepSchemas (convertRefs (Yaml.seq l))
        else refsAvoid yamlSepSchemas (convertRefs (Yaml.seq l))) = true
      rw [ite_self]
      exact h1
    | map l =>
      show refsAvoidEntry yamlSepSchemas k
        (if k = "$ref" then convertRefs (Yaml.map l) else convertRefs (Yaml.map l)) = true
      rw [ite_self]
      show (if k = "$ref" then refsAvoid yamlSepSchemas (convertRefs (Yaml.map l))
        else refsAvoid yamlSepSchemas (convertRefs (Yaml.map l))) = true
      rw [ite_self]
      exact h1
  · unfold convertEntry
    rw [if_neg hk]
    unfold refsAvoidEntry
    rw [if_neg hk]
    exact h1

/-- After the rewriting pass, no `$ref` string contains the external
marker: joint statement for trees, sequences and mappings, by strong
induction on size. -/
theorem refsAvoid_convert_all : ∀ n : Nat,
    (∀ y : Yaml, sizeOf y ≤ n → refsAvoid yamlSepSchemas (convertRefs y) = true) ∧
    (∀ l : List Yaml, sizeOf l ≤ n → refsAvoidList yamlSepSchemas (convertRefsList l) = true) ∧
    (∀ m : List (String × Yaml), sizeOf m ≤ n →
      refsAvoidMap yamlSepSchemas (convertRefsMap m) = true) := by
  intro n
  induction n with
  | zero =>
    refine ⟨fun y hy => ?_, fun l hl => ?_, fun m hm => ?_⟩
    · exfalso
      have : 0 < sizeOf y := by cases y <;> simp_arith
      omega
    · exfalso
      have : 0 < sizeOf l := by cases l <;> simp_arith
      omega
    · exfalso
      have : 0 < sizeOf m := by cases m <;> simp_arith
      omega
  | succ n ih =>
    refine ⟨fun y hy => ?_, fun l hl => ?_, fun m hm => ?_⟩
    · cases y with
      | map l =>
        simp only [convertRefs, refsAvoid]
        refine ih.2.2 l ?_
        simp_arith at hy
        omega
      | seq l =>
        simp only [convertRefs, refsAvoid]
        refine ih.2.1 l ?_
        simp_arith at hy
        omega
      | str s => simp only [convertRefs, refsAvoid]
      | num k => simp only [convertRefs, refsAvoid]
      | bool b => simp only [convertRefs, refsAvoid]
      | null => simp only [convertRefs, refsAvoid]
    · cases l with
      | nil => simp only [convertRefsList, refsAvoidList]
      | cons y t =>
        simp_arith at hl
        simp only [convertRefsList, refsAvoidList]
        rw [ih.1 y (by omega), ih.2.1 t (by omega)]
        rfl
    · cases m with
      | nil => simp only [convertRefsMap, refsAvoidMap]
      | cons kv t =>
        obtain ⟨k, v⟩ := kv
        simp_arith at hm
        have ht := ih.2.2 t (by omega)
        have hv := ih.1 v (by omega)
        rw [convertRefsMap_cons, refsAvoidMap_cons, ht, Bool.and_true]
        exact refsAvoidEntry_convertEntry k v hv

/-- Tree form of the statement. -/
theorem refsAvoid_convertRefs (y : Yaml) :
    refsAvoid yamlSepSchemas (convertRefs y) = true :=
  (refsAvoid_convert_all (sizeOf y)).1 y le_rfl

/-- The external-pointer marker occurs in `a ++ sep ++ b` at the marked
position. -/
theorem yamlSep_in_split (pre id0 : List Char) :
    yamlSepSchemas <:+: (pre ++ yamlSepSchemas ++ id0) := ⟨pre, id0, rfl⟩

/-- `C8` — the Name Normalizer `remove_version_from_schema_name` removes
version tokens (collapsing each occurrence to a single underscore, e.g.
`Message_v1_2_1_Message ↦ Message_Message`) and returns any identifier
containing no version token unchanged; as a Lean function it is pure and
total by construction. -/
theorem C8_name_normalizer (s : List Char) (h : hasVersionToken s = false) :
    removeVersionL s = s ∧
    removeVersionL (String.toList "Message_v1_2_1_Message") =
      String.toList "Message_Message" ∧
    removeVersionL (String.toList "Message_Message") =
      String.toList "Message_Message" :=
  ⟨removeVersionL_of_no_token h, by decide, by decide⟩

/-- Witness for `C8` at the token-free identifier `Message_Message`. -/
theorem C8_name_normalizer_witness :
    removeVersionL (String.toList "Message_Message") =
      String.toList "Message_Message" ∧
    removeVersionL (String.toList "Message_v1_2_1_Message") =
      String.toList "Message_Message" :=
  ⟨(C8_name_normalizer (String.toList "Message_Message") (by decide)).1,
   (C8_name_normalizer (String.toList "Message_Message") (by decide)).2.1⟩

/-- Splitting an external pointer on the separator yields the identifier. -/
theorem afterLast_external (pre id0 : List Char) (hid : ¬ sepSchemas <:+: id0) :
    afterLast sepSchemas (pre ++ yamlSepSchemas ++ id0) = id0 := by
  rw [yamlSepSchemas_eq]
  rw [show pre ++ (yamlDot ++ sepSchemas) ++ id0 = (pre ++ yamlDot) ++ sepSchemas ++ id0 by
    simp [List.append_assoc]]
  rw [sepSchemas_eq] at hid ⊢
  exact afterLast_append hid (by decide) (pre ++ yamlDot)

/-- Splitting an internal pointer on the separator yields the identifier. -/
theorem afterLast_internal (id0 : List Char) (hid : ¬ sepSchemas <:+: id0) :
    afterLast sepSchemas (sepSchemas ++ id0) = id0 := by
  rw [show sepSchemas ++ id0 = [] ++ sepSchemas ++ id0 by simp]
  rw [sepSchemas_eq] at hid ⊢
  exact afterLast_append hid (by decide) []

/-- `C7` — the Reference Rewriter: an external pointer
`<anything>.yaml#/components/schemas/<id>` is rewritten to
`#/components/schemas/<canonicalize(id)>`; an internal pointer
`#/components/schemas/<id>` is canonicalized the same way; any other
`$ref` value passes through unchanged; the traversal maps uniformly over
mappings and sequences (rewriting exactly the string values stored under
`$ref` keys) and is total, so it never fails on a malformed pointer. -/
theorem C7_reference_rewriter (pre id0 : List Char) (v : String)
    (hid : ¬ sepSchemas <:+: id0)
    (h1 : ¬ yamlSepSchemas <:+: v.toList) (h2 : ¬ sepSchemas <+: v.toList) :
    rewriteRefValue (String.mk (pre ++ yamlSepSchemas ++ id0)) =
      String.mk (sepSchemas ++ removeVersionL id0) ∧
    rewriteRefValue (String.mk (sepSchemas ++ id0)) =
      String.mk (sepSchemas ++ removeVersionL id0) ∧
    rewriteRefValue v = v ∧
    (∀ t : List (String × Yaml), convertRefs (Yaml.map t) = Yaml.map (convertRefsMap t)) ∧
    (∀ l : List Yaml, convertRefs (Yaml.seq l) = Yaml.seq (convertRefsList l)) ∧
    (∀ (k : String) (w : Yaml) (t : List (String × Yaml)),
      convertRefsMap ((k, w) :: t) = (k, convertEntry k w) :: convertRefsMap t) ∧
    (∀ s : String, convertEntry "$ref" (Yaml.str s) = Yaml.str (rewriteRefValue s)) ∧
    (∀ (k : String) (w : Yaml), k ≠ "$ref" → convertEntry k w = convertRefs w) := by
  refine ⟨?_, ?_, ?_, fun t => rfl, fun l => rfl, convertRefsMap_cons, ?_, ?_⟩
  · unfold rewriteRefValue
    have hc : yamlSepSchemas <:+: (String.mk (pre ++ yamlSepSchemas ++ id0)).toList :=
      yamlSep_in_split pre id0
    rw [if_pos hc]
    rw [show (String.mk (pre ++ yamlSepSchemas ++ id0)).toList =
      pre ++ yamlSepSchemas ++ id0 from rfl]
    rw [afterLast_external pre id0 hid]
  · unfold rewriteRefValue
    have hnc : ¬ yamlSepSchemas <:+: (String.mk (sepSchemas ++ id0)).toList :=
      not_bad_in_result hid
    rw [if_neg hnc]
    have hp : sepSchemas.isPrefixOf (String.mk (sepSchemas ++ id0)).toList = true := by
      rw [List.isPrefixOf_iff_prefix]
      exact List.prefix_append _ _
    rw [if_pos hp]
    rw [show (String.mk (sepSchemas ++ id0)).toList = sepSchemas ++ id0 from rfl]
    rw [afterLast_internal id0 hid]
  · unfold rewriteRefValue
    rw [if_neg h1]
    have hp : ¬ sepSchemas.isPrefixOf v.toList = true := by
      rw [List.isPrefixOf_iff_prefix]
      exact h2
    rw [if_neg hp]
  · intro s
    unfold convertEntry
    rw [if_pos rfl]
  · intro k w hk
    unfold convertEntry
    rw [if_neg hk]

/-- Witness for `C7`: the spec example
`rewrite("Resource.yaml#/components/schemas/Resource_v1_0_0_Health") ==
"#/components/schemas/Resource_Health"`, plus a pass-through value. -/
theorem C7_reference_rewriter_witness :
    rewriteRefValue "Resource.yaml#/components/schemas/Resource_v1_0_0_Health" =
      "#/components/schemas/Resource_Health" ∧
    rewriteRefValue "not-a-pointer" = "not-a-pointer" := by
  have h := C7_reference_rewriter (String.toList "Resource")
    (String.toList "Resource_v1_0_0_Health") "not-a-pointer"
    (by decide) (by decide) (by decide)
  constructor
  · have e1 : String.mk (String.toList "Resource" ++ yamlSepSchemas ++
        String.toList "Resource_v1_0_0_Health") =
        "Resource.yaml#/components/schemas/Resource_v1_0_0_Health" := by decide
    have e2 : String.mk (sepSchemas ++ removeVersionL (String.toList "Resource_v1_0_0_Health")) =
        "#/components/schemas/Resource_Health" := by decide
    rw [← e1, ← e2]
    exact h.1
  · exact h.2.2.1

/-! ### The Schema Merger (`merge_openapi_files`) -/

/-- String-valued form of the Name Normalizer. -/
def removeVersionS (s : String) : String := String.mk (removeVersionL s.toList)

/-- One schema definition `(name, d)` folded into the accumulated schema
map (merge-redfish-openapi.py lines 91-110): compute the clean name,
check `'_v' in schema_name and clean_schema_name != schema_name`, then
insert / overwrite / skip. -/
def mergeSchemaStep (schemas : List (String × Yaml)) (name : String) (d : Yaml) :
    List (String × Yaml) :=
  let clean := removeVersionS name
  let hasVersion := decide (String.toList "_v" <:+: name.toList) && decide (clean ≠ name)
  if hasKeyD schemas clean then
    if hasVersion then setKeyD schemas clean d else schemas
  else setKeyD schemas clean d

/-- All schema definitions of one fragment folded in, in dict order. -/
def mergeSchemas (schemas fragSchemas : List (String × Yaml)) : List (String × Yaml) :=
  fragSchemas.foldl (fun acc kv => mergeSchemaStep acc kv.1 kv.2) schemas

/-- The fallback skeleton created when the base `openapi.yaml` is absent
(lines 47-60). -/
def basicStructure : Yaml :=
  .map [("openapi", .str "3.0.0"),
        ("info", .map [("title", .str "Redfish API"),
                       ("version", .str "1.0.0"),
                       ("description", .str "Merged Redfish API specification")]),
        ("paths", .map []),
        ("components", .map [("schemas", .map [])])]

/-- Lines 66-69: ensure `components` and `components.schemas` exist on the
base document.  `none` models an uncaught `TypeError` on a non-mapping
`components` value (the script would abort before writing anything). -/
def ensureComponents (spec : Yaml) : Option Yaml :=
  match spec with
  | .map l =>
    match lookupD l "components" with
    | none => some (.map (setKeyD l "components" (.map [("schemas", .map [])])))
    | some (.map cm) =>
      if hasKeyD cm "schemas" then some (.map l)
      else some (.map (setKeyD l "components" (.map (setKeyD cm "schemas" (.map [])))))
    | some _ => none
  | _ => none

/-- Merge the `components.schemas` of one fragment into the accumulated
spec (the loop at lines 91-110).  When the accumulated
`components.schemas` is not a mapping, the first conflict check raises;
the per-fragment `except` catches it, so `none` means "skip the rest of
this fragment, keep the spec as is" (no mutation has happened yet). -/
def mergeFragmentSchemas (spec : Yaml) (fs : List (String × Yaml)) : Option Yaml :=
  match spec with
  | .map l =>
    match lookupD l "components" with
    | some (.map cm) =>
      match lookupD cm "schemas" with
      | some (.map sm) =>
        some (.map (setKeyD l "components"
          (.map (setKeyD cm "schemas" (.map (mergeSchemas sm fs))))))
      | some _ => if fs.isEmpty then some spec else none
      | none => if fs.isEmpty then some spec else none
    | some _ => if fs.isEmpty then some spec else none
    | none => if fs.isEmpty then some spec else none
  | _ => if fs.isEmpty then some spec else none

/-- Line 114-115: `if 'paths' not in main_spec: main_spec['paths'] = {}`. -/
def ensurePaths (l1 : List (String × Yaml)) : List (String × Yaml) :=
  if hasKeyD l1 "paths" then l1 else setKeyD l1 "paths" (.map [])

/-- Line 117: `main_spec['paths'].update(schema_spec['paths'])` (a
non-mapping value raises; the mutation so far persists). -/
def updatePaths (l2 : List (String × Yaml)) (fp : List (String × Yaml)) : Yaml :=
  match lookupD l2 "paths" with
  | some (.map pm) => .map (setKeyD l2 "paths" (.map (updateD pm fp)))
  | _ => .map l2

/-- The `paths` section of one fragment merged in (lines 113-117):
`main_spec['paths']` is created when absent, then `update`d with the
fragment's paths (a non-mapping on either side raises; the ensure-mutation
persists and the update is abandoned). -/
def processFragmentPaths (spec1 : Yaml) (fl : List (String × Yaml)) : Yaml :=
  match lookupD fl "paths" with
  | some (.map fp) =>
    match spec1 with
    | .map l1 => updatePaths (ensurePaths l1) fp
    | _ => spec1
  | some _ =>
    match spec1 with
    | .map l1 => .map (ensurePaths l1)
    | _ => spec1
  | none => spec1

/-- Process one fragment (the body of the `for yaml_file` loop, lines
80-121).  An exception anywhere in the body lands in the `except` clause
(line 119): mutations already applied are kept, the rest of the fragment
is skipped, and the run continues. -/
def processFragment (spec frag : Yaml) : Yaml :=
  match frag with
  | .map fl =>
    match (match lookupD fl "components" with
      | some (.map fc) =>
        match lookupD fc "schemas" with
        | some (.map fs) => mergeFragmentSchemas spec fs
        | some _ => none
        | none => some spec
      | some _ => none
      | none => some spec : Option Yaml) with
    | none => spec
    | some spec1 => processFragmentPaths spec1 fl
  | _ => spec

/-- Lines 128-131: collapse the trailing-slash alias `/redfish/v1/` when
both spellings are present as path keys.  (A non-mapping `paths` value is
passed through; the claims settled here do not exercise that corner.) -/
def dropDupRedfishPath (spec : Yaml) : Yaml :=
  match spec with
  | .map l =>
    match lookupD l "paths" with
    | some (.map pm) =>
      if hasKeyD pm "/redfish/v1/" && hasKeyD pm "/redfish/v1" then
        .map (setKeyD l "paths" (.map (delKeyD pm "/redfish/v1/")))
      else .map l
    | _ => .map l
  | y => y

/-- `merge_openapi_files` (lines 42-141) as a function of its inputs: the
base document (`none` when `openapi/dmtf/openapi.yaml` is absent, in which
case the skeleton is substituted) and the fragment documents in the order
`glob.glob` lists them (glob performs no sorting, so this is the raw
directory-listing order).  The result is the document written to
`openapi/merged/redfish-openapi.yaml`; `none` models an uncaught
exception, in which case nothing is written. -/
def mergeOpenapiFiles (base : Option Yaml) (fragments : List Yaml) : Option Yaml :=
  match ensureComponents (base.getD basicStructure) with
  | none => none
  | some spec0 =>
    let spec1 := fragments.foldl processFragment spec0
    let spec2 := convertRefs spec1
    some (dropDupRedfishPath spec2)

/-- The entries of a mapping node (empty for any other node). -/
def entriesOf : Yaml → List (String × Yaml)
  | .map l => l
  | _ => []

/-- Look a key up and view the value as a mapping. -/
def getMapD (l : List (String × Yaml)) (k : String) : List (String × Yaml) :=
  match lookupD l k with
  | some (.map m) => m
  | _ => []

/-- The `components.schemas` mapping of a document (empty when the
document does not have that shape). -/
def schemasOf (spec : Yaml) : List (String × Yaml) :=
  getMapD (getMapD (entriesOf spec) "components") "schemas"

/-! ### Ordered-dict lemmas -/

theorem lookupD_setKeyD_self : ∀ (l : List (String × Yaml)) (k : String) (v : Yaml),
    lookupD (setKeyD l k v) k = some v
  | [], k, v => by simp [setKeyD, lookupD]
  | (k0, w) :: t, k, v => by
    by_cases h : k0 = k
    · simp [setKeyD, lookupD, h]
    · simp only [setKeyD, lookupD, if_neg h]
      exact lookupD_setKeyD_self t k v

theorem lookupD_setKeyD_ne : ∀ (l : List (String × Yaml)) (k k' : String) (v : Yaml),
    k' ≠ k → lookupD (setKeyD l k v) k' = lookupD l k'
  | [], k, k', v, h => by simp [setKeyD, lookupD, Ne.symm h]
  | (k0, w) :: t, k, k', v, h => by
    by_cases h0 : k0 = k
    · subst h0
      simp only [setKeyD, if_pos rfl, lookupD]
      rw [if_neg (Ne.symm h), if_neg (Ne.symm h)]
    · simp only [setKeyD, if_neg h0, lookupD]
      by_cases h1 : k0 = k'
      · simp [h1]
      · simp only [if_neg h1]
        exact lookupD_setKeyD_ne t k k' v h

theorem setKeyD_absent : ∀ (l : List (String × Yaml)) (k : String) (v : Yaml),
    hasKeyD l k = false → setKeyD l k v = l ++ [(k, v)]
  | [], k, v, _ => rfl
  | (k0, w) :: t, k, v, h => by
    simp only [hasKeyD, lookupD] at h
    by_cases h0 : k0 = k
    · rw [if_pos h0] at h
      simp at h
    · rw [if_neg h0] at h
      simp only [setKeyD, if_neg h0, List.cons_append]
      rw [setKeyD_absent t k v h]

theorem keys_setKeyD : ∀ (l : List (String × Yaml)) (k : String) (v : Yaml),
    (setKeyD l k v).map Prod.fst =
      if hasKeyD l k then l.map Prod.fst else l.map Prod.fst ++ [k]
  | [], k, v => by simp [setKeyD, hasKeyD, lookupD]
  | (k0, w) :: t, k, v => by
    simp only [hasKeyD, lookupD, setKeyD]
    by_cases h0 : k0 = k
    · simp [h0]
    · simp only [if_neg h0, List.map_cons]
      rw [keys_setKeyD t k v]
      simp only [hasKeyD]
      by_cases ht : (lookupD t k).isSome
      · simp [ht]
      · simp only [Bool.not_eq_true] at ht
        simp [ht]

/-! ### The `has_version` test -/

theorem matchVersion_shape {s r : List Char} (h : matchVersion s = some r) :
    ∃ r0, s = '_' :: 'v' :: r0 := by
  unfold matchVersion matchVersionG at h
  split at h
  · exact ⟨_, rfl⟩
  · simp at h

theorem hasVersionToken_uv : ∀ {s : List Char},
    hasVersionToken s = true → ['_', 'v'] <:+: s := by
  intro s
  induction s with
  | nil => intro h; simp [hasVersionToken] at h
  | cons c t ih =>
    intro h
    simp only [hasVersionToken, Bool.or_eq_true] at h
    rcases h with h | h
    · rw [Option.isSome_iff_exists] at h
      obtain ⟨r, hr⟩ := h
      obtain ⟨r0, hshape⟩ := matchVersion_shape hr
      rw [hshape]
      exact ⟨[], r0, rfl⟩
    · exact List.infix_cons_iff.mpr (Or.inr (ih h))

/-- `String.mk` of the underlying character list is the string itself. -/
theorem String.mk_toList (s : String) : String.mk s.toList = s := rfl

theorem removeVersionS_ne_imp_uv {s : String} (h : removeVersionS s ≠ s) :
    String.toList "_v" <:+: s.toList := by
  have hl : removeVersionL s.toList ≠ s.toList := by
    intro he
    exact h (by rw [removeVersionS, he]; rfl)
  have ht : hasVersionToken s.toList = true := by
    by_contra hc
    simp only [Bool.not_eq_true] at hc
    exact hl (removeVersionL_of_no_token hc)
  exact hasVersionToken_uv ht

/-- `C3` — the conflict policy of one merge step: with the canonical name
already present, a name carrying a version token (canonical ≠ name)
overwrites the entry at the canonical key and an unversioned name is
skipped (existing entry retained); with the canonical name absent, the
definition is inserted (appended) under the canonical key.  The two
precedence examples are included with identifiers carrying a well-formed
embedded version token (`X_v1_0_0_Y`; a bare trailing `X_v1_0_0` does not
match the `_v\d+_\d+_\d+_` pattern and is not "versioned" for the code). -/
theorem C3_conflict_policy (schemas : List (String × Yaml)) (name : String) (d : Yaml) :
    mergeSchemaStep schemas name d =
      (if hasKeyD schemas (removeVersionS name) = true then
        (if removeVersionS name = name then schemas
         else setKeyD schemas (removeVersionS name) d)
       else schemas ++ [(removeVersionS name, d)]) ∧
    mergeSchemas (mergeSchemas [] [("X_Y", Yaml.str "defA")])
      [("X_v1_0_0_Y", Yaml.str "defB")] = [("X_Y", Yaml.str "defB")] ∧
    mergeSchemas (mergeSchemas [] [("X_v1_0_0_Y", Yaml.str "defB")])
      [("X_Y", Yaml.str "defA")] = [("X_Y", Yaml.str "defB")] := by
  refine ⟨?_, by rfl, by rfl⟩
  unfold mergeSchemaStep
  by_cases hk : hasKeyD schemas (removeVersionS name) = true
  · rw [if_pos hk, if_pos hk]
    by_cases hv : removeVersionS name = name
    · rw [if_pos hv]
      rw [if_neg]
      simp [hv]
    · rw [if_neg hv]
      rw [if_pos]
      simp only [Bool.and_eq_true, decide_eq_true_eq]
      exact ⟨by simpa using removeVersionS_ne_imp_uv hv, hv⟩
  · simp only [Bool.not_eq_true] at hk
    rw [if_neg (by simp [hk]), if_neg (by simp [hk])]
    exact setKeyD_absent schemas (removeVersionS name) d hk

/-! ### Keys of the merged schema map -/

theorem keys_mergeSchemaStep_fixed {schemas : List (String × Yaml)} {name : String}
    {d : Yaml}
    (hs : ∀ k ∈ schemas.map Prod.fst, removeVersionS k = k)
    (hn : removeVersionS (removeVersionS name) = removeVersionS name) :
    ∀ k ∈ (mergeSchemaStep schemas name d).map Prod.fst, removeVersionS k = k := by
  intro k hk
  unfold mergeSchemaStep at hk
  by_cases hp : hasKeyD schemas (removeVersionS name) = true
  · rw [if_pos hp] at hk
    by_cases hv : (decide (String.toList "_v" <:+: name.toList) &&
        decide (removeVersionS name ≠ name)) = true
    · rw [if_pos hv, keys_setKeyD, if_pos hp] at hk
      exact hs k hk
    · rw [if_neg hv] at hk
      exact hs k hk
  · rw [if_neg hp, keys_setKeyD] at hk
    simp only [Bool.not_eq_true] at hp
    rw [hp] at hk
    simp only [Bool.false_eq_true, if_neg (by simp : ¬ False), List.mem_append,
      List.mem_singleton] at hk
    rcases hk with hk | hk
    · exact hs k hk
    · rw [hk]
      exact hn

theorem keys_mergeSchemas_fixed {fs : List (String × Yaml)} :
    ∀ {schemas : List (String × Yaml)},
    (∀ k ∈ schemas.map Prod.fst, removeVersionS k = k) →
    (∀ nm ∈ fs.map Prod.fst, removeVersionS (removeVersionS nm) = removeVersionS nm) →
    ∀ k ∈ (mergeSchemas schemas fs).map Prod.fst, removeVersionS k = k := by
  induction fs with
  | nil => intro schemas hs _; exact hs
  | cons nv t ih =>
    intro schemas hs hf
    have h0 : removeVersionS (removeVersionS nv.1) = removeVersionS nv.1 :=
      hf nv.1 (by simp)
    have hstep := keys_mergeSchemaStep_fixed (d := nv.2) hs h0
    have hf' : ∀ nm ∈ t.map Prod.fst,
        removeVersionS (removeVersionS nm) = removeVersionS nm := by
      intro nm hm
      exact hf nm (by simp [hm])
    exact ih hstep hf'

theorem getMapD_setKeyD_self (l : List (String × Yaml)) (k : String) (v : Yaml) :
    getMapD (setKeyD l k v) k = entriesOf v := by
  unfold getMapD
  rw [lookupD_setKeyD_self]
  cases v <;> rfl

theorem getMapD_setKeyD_ne (l : List (String × Yaml)) (k k' : String) (v : Yaml)
    (h : k' ≠ k) : getMapD (setKeyD l k v) k' = getMapD l k' := by
  unfold getMapD
  rw [lookupD_setKeyD_ne l k k' v h]

theorem getMapD_eq {l cm : List (String × Yaml)} {k : String}
    (hc : lookupD l k = some (.map cm)) : getMapD l k = cm := by
  unfold getMapD
  rw [hc]

theorem schemasOf_set_paths (l : List (String × Yaml)) (v : Yaml) :
    schemasOf (.map (setKeyD l "paths" v)) = schemasOf (.map l) := by
  unfold schemasOf
  rw [show entriesOf (.map (setKeyD l "paths" v)) = setKeyD l "paths" v from rfl]
  rw [getMapD_setKeyD_ne l "paths" "components" v (by decide)]
  rfl

theorem schemasOf_merged (l cm : List (String × Yaml)) (X : List (String × Yaml)) :
    schemasOf (.map (setKeyD l "components"
      (.map (setKeyD cm "schemas" (.map X))))) = X := by
  unfold schemasOf
  rw [show entriesOf (.map (setKeyD l "components"
    (.map (setKeyD cm "schemas" (.map X))))) =
    setKeyD l "components" (.map (setKeyD cm "schemas" (.map X))) from rfl]
  rw [getMapD_setKeyD_self]
  rw [show entriesOf (.map (setKeyD cm "schemas" (.map X))) =
    setKeyD cm "schemas" (.map X) from rfl]
  rw [getMapD_setKeyD_self]
  rfl

theorem schemasOf_mergeFragmentSchemas {spec out : Yaml} {fs : List (String × Yaml)}
    (h : mergeFragmentSchemas spec fs = some out) :
    out = spec ∨ schemasOf out = mergeSchemas (schemasOf spec) fs := by
  unfold mergeFragmentSchemas at h
  split at h
  case h_2 =>
    split at h
    · simp at h
      exact Or.inl h.symm
    · simp at h
  case h_1 l =>
    split at h
    case h_1 cm hc =>
      split at h
      case h_1 sm hm =>
        simp only [Option.some.injEq] at h
        refine Or.inr ?_
        rw [← h]
        rw [schemasOf_merged]
        congr 1
        unfold schemasOf
        rw [show entriesOf (.map l) = l from rfl, getMapD_eq hc, getMapD_eq hm]
      case h_2 =>
        split at h
        · simp at h; exact Or.inl h.symm
        · simp at h
      case h_3 =>
        split at h
        · simp at h; exact Or.inl h.symm
        · simp at h
    case h_2 =>
      split at h
      · simp at h; exact Or.inl h.symm
      · simp at h
    case h_3 =>
      split at h
      · simp at h; exact Or.inl h.symm
      · simp at h

/-- Ensuring the `paths` key never touches `components.schemas`. -/
theorem schemasOf_ensurePaths (l1 : List (String × Yaml)) :
    schemasOf (.map (ensurePaths l1)) = schemasOf (.map l1) := by
  unfold ensurePaths
  by_cases hpk : hasKeyD l1 "paths" = true
  · rw [if_pos hpk]
  · rw [if_neg hpk]
    exact schemasOf_set_paths l1 _

/-- Updating `paths` never touches `components.schemas`. -/
theorem schemasOf_updatePaths (l2 fp : List (String × Yaml)) :
    schemasOf (updatePaths l2 fp) = schemasOf (.map l2) := by
  unfold updatePaths
  split
  case h_1 pm hpm => exact schemasOf_set_paths l2 _
  case h_2 => rfl

/-- The paths step never touches `components.schemas`. -/
theorem schemasOf_processFragmentPaths (spec1 : Yaml) (fl : List (String × Yaml)) :
    schemasOf (processFragmentPaths spec1 fl) = schemasOf spec1 := by
  unfold processFragmentPaths
  cases hfp : lookupD fl "paths" with
  | none => rfl
  | some w =>
    cases w with
    | map fp =>
      cases spec1 with
      | map l1 =>
        rw [schemasOf_updatePaths, schemasOf_ensurePaths]
      | str s => rfl
      | num n => rfl
      | bool b => rfl
      | null => rfl
      | seq l => rfl
    | str s =>
      cases spec1 with
      | map l1 => exact schemasOf_ensurePaths l1
      | str s2 => rfl
      | num n => rfl
      | bool b => rfl
      | null => rfl
      | seq l => rfl
    | num n =>
      cases spec1 with
      | map l1 => exact schemasOf_ensurePaths l1
      | str s2 => rfl
      | num n2 => rfl
      | bool b => rfl
      | null => rfl
      | seq l => rfl
    | bool b =>
      cases spec1 with
      | map l1 => exact schemasOf_ensurePaths l1
      | str s2 => rfl
      | num n => rfl
      | bool b2 => rfl
      | null => rfl
      | seq l => rfl
    | null =>
      cases spec1 with
      | map l1 => exact schemasOf_ensurePaths l1
      | str s2 => rfl
      | num n => rfl
      | bool b => rfl
      | null => rfl
      | seq l => rfl
    | seq l =>
      cases spec1 with
      | map l1 => exact schemasOf_ensurePaths l1
      | str s2 => rfl
      | num n => rfl
      | bool b => rfl
      | null => rfl
      | seq l2 => rfl

/-- One fragment either leaves `components.schemas` unchanged or merges its
own schema map into it. -/
theorem schemasOf_processFragment (spec frag : Yaml) :
    schemasOf (processFragment spec frag) = schemasOf spec ∨
    schemasOf (processFragment spec frag) =
      mergeSchemas (schemasOf spec) (schemasOf frag) := by
  cases frag with
  | map fl =>
    simp only [processFragment]
    cases hc : lookupD fl "components" with
    | none => exact Or.inl (schemasOf_processFragmentPaths spec fl)
    | some v =>
      cases v with
      | map fc =>
        dsimp only
        cases hm : lookupD fc "schemas" with
        | none => exact Or.inl (schemasOf_processFragmentPaths spec fl)
        | some w =>
          cases w with
          | map fs =>
            dsimp only
            cases hmf : mergeFragmentSchemas spec fs with
            | none => exact Or.inl rfl
            | some spec1 =>
              rcases schemasOf_mergeFragmentSchemas hmf with h | h
              · subst h
                exact Or.inl (schemasOf_processFragmentPaths spec1 fl)
              · refine Or.inr ?_
                rw [schemasOf_processFragmentPaths spec1 fl, h]
                congr 2
                unfold schemasOf
                rw [show entriesOf (.map fl) = fl from rfl, getMapD_eq hc, getMapD_eq hm]
          | str s => exact Or.inl rfl
          | num n => exact Or.inl rfl
          | bool b => exact Or.inl rfl
          | null => exact Or.inl rfl
          | seq l => exact Or.inl rfl
      | str s => exact Or.inl rfl
      | num n => exact Or.inl rfl
      | bool b => exact Or.inl rfl
      | null => exact Or.inl rfl
      | seq l => exact Or.inl rfl
  | str s => exact Or.inl rfl
  | num n => exact Or.inl rfl
  | bool b => exact Or.inl rfl
  | null => exact Or.inl rfl
  | seq l => exact Or.inl rfl

/-- Folding all fragments keeps every schema key a normalize-fixed point,
provided the canonical form of every fragment schema name is itself
fixed. -/
theorem keys_fold_fixed : ∀ (fragments : List Yaml) (spec : Yaml),
    (∀ k ∈ (schemasOf spec).map Prod.fst, removeVersionS k = k) →
    (∀ frag ∈ fragments, ∀ nm ∈ (schemasOf frag).map Prod.fst,
      removeVersionS (removeVersionS nm) = removeVersionS nm) →
    ∀ k ∈ (schemasOf (fragments.foldl processFragment spec)).map Prod.fst,
      removeVersionS k = k := by
  intro fragments
  induction fragments with
  | nil => intro spec hs _; exact hs
  | cons f t ih =>
    intro spec hs hf
    simp only [List.foldl_cons]
    refine ih (processFragment spec f) ?_ ?_
    · rcases schemasOf_processFragment spec f with h | h
      · rw [h]; exact hs
      · rw [h]
        exact keys_mergeSchemas_fixed hs (hf f (by simp))
    · intro frag hfrag
      exact hf frag (by simp [hfrag])

/-- The ensure phase either keeps the schema map or creates an empty one. -/
theorem schemasOf_ensure {spec s0 : Yaml} (h : ensureComponents spec = some s0) :
    schemasOf s0 = schemasOf spec ∨ schemasOf s0 = [] := by
  unfold ensureComponents at h
  split at h
  case h_2 => simp at h
  case h_1 l =>
    split at h
    case h_1 hc =>
      simp only [Option.some.injEq] at h
      refine Or.inr ?_
      rw [← h]
      unfold schemasOf
      rw [show entriesOf (.map (setKeyD l "components"
        (.map [("schemas", .map [])]))) =
        setKeyD l "components" (.map [("schemas", .map [])]) from rfl]
      rw [getMapD_setKeyD_self]
      rfl
    case h_2 cm hc =>
      by_cases hk : hasKeyD cm "schemas" = true
      · rw [if_pos hk] at h
        simp only [Option.some.injEq] at h
        exact Or.inl (by rw [← h])
      · rw [if_neg hk] at h
        simp only [Option.some.injEq] at h
        refine Or.inr ?_
        rw [← h]
        unfold schemasOf
        rw [show entriesOf (.map (setKeyD l "components"
          (.map (setKeyD cm "schemas" (.map []))))) =
          setKeyD l "components" (.map (setKeyD cm "schemas" (.map []))) from rfl]
        rw [getMapD_setKeyD_self]
        rw [show entriesOf (.map (setKeyD cm "schemas" (.map []))) =
          setKeyD cm "schemas" (.map []) from rfl]
        rw [getMapD_setKeyD_self]
        rfl
    case h_3 => simp at h

theorem convertEntry_ne_ref {k : String} (v : Yaml) (h : ¬ k = "$ref") :
    convertEntry k v = convertRefs v := by
  unfold convertEntry
  rw [if_neg h]

theorem lookupD_convertRefsMap : ∀ (l : List (String × Yaml)) (k : String),
    lookupD (convertRefsMap l) k = (lookupD l k).map (fun v => convertEntry k v)
  | [], _ => rfl
  | (k0, v) :: t, k => by
    rw [convertRefsMap_cons]
    simp only [lookupD]
    by_cases h : k0 = k
    · subst h
      simp
    · rw [if_neg h, if_neg h]
      exact lookupD_convertRefsMap t k

theorem keys_convertRefsMap : ∀ l : List (String × Yaml),
    (convertRefsMap l).map Prod.fst = l.map Prod.fst
  | [] => rfl
  | (k, v) :: t => by
    rw [convertRefsMap_cons]
    simp only [List.map_cons]
    rw [keys_convertRefsMap t]

theorem getMapD_convertRefsMap (l : List (String × Yaml)) (k : String)
    (hk : ¬ k = "$ref") :
    getMapD (convertRefsMap l) k = convertRefsMap (getMapD l k) := by
  unfold getMapD
  rw [lookupD_convertRefsMap]
  cases hc : lookupD l k with
  | none => rfl
  | some v =>
    simp only [Option.map_some']
    rw [convertEntry_ne_ref v hk]
    cases v with
    | map m => rfl
    | seq l2 => rfl
    | str s => rfl
    | num n => rfl
    | bool b => rfl
    | null => rfl

/-- The rewriting pass maps the schema section entrywise (keys kept). -/
theorem schemasOf_convertRefs (y : Yaml) :
    schemasOf (convertRefs y) = convertRefsMap (schemasOf y) := by
  cases y with
  | map l =>
    show schemasOf (.map (convertRefsMap l)) = _
    unfold schemasOf
    rw [show entriesOf (.map (convertRefsMap l)) = convertRefsMap l from rfl]
    rw [getMapD_convertRefsMap l "components" (by decide)]
    rw [getMapD_convertRefsMap _ "schemas" (by decide)]
    rfl
  | seq l => rfl
  | str s => rfl
  | num n => rfl
  | bool b => rfl
  | null => rfl

/-- Collapsing the duplicate `/redfish/v1/` path never touches
`components.schemas`. -/
theorem schemasOf_dropDup (y : Yaml) :
    schemasOf (dropDupRedfishPath y) = schemasOf y := by
  cases y with
  | map l =>
    simp only [dropDupRedfishPath]
    cases hp : lookupD l "paths" with
    | none => rfl
    | some v =>
      cases v with
      | map pm =>
        dsimp only
        by_cases hcond : (hasKeyD pm "/redfish/v1/" && hasKeyD pm "/redfish/v1") = true
        · rw [if_pos hcond]
          exact schemasOf_set_paths l _
        · rw [if_neg hcond]
      | seq l2 => rfl
      | str s => rfl
      | num n => rfl
      | bool b => rfl
      | null => rfl
  | seq l => rfl
  | str s => rfl
  | num n => rfl
  | bool b => rfl
  | null => rfl

/-- `C2` (corrected) — provided every schema key of the base document and
the canonical form of every fragment schema name are themselves fixed
under normalization (true of all well-formed Redfish identifiers), the
merged output's schema map carries no duplicate canonical identifiers:
distinct keys have distinct canonical forms. -/
theorem C2_no_duplicate_canonicals (base : Option Yaml) (fragments : List Yaml)
    (out : Yaml)
    (hbase : ∀ k ∈ (schemasOf (base.getD basicStructure)).map Prod.fst,
      removeVersionS k = k)
    (hfrag : ∀ frag ∈ fragments, ∀ nm ∈ (schemasOf frag).map Prod.fst,
      removeVersionS (removeVersionS nm) = removeVersionS nm)
    (hout : mergeOpenapiFiles base fragments = some out) :
    ∀ k1 ∈ (schemasOf out).map Prod.fst, ∀ k2 ∈ (schemasOf out).map Prod.fst,
      k1 ≠ k2 → removeVersionS k1 ≠ removeVersionS k2 := by
  unfold mergeOpenapiFiles at hout
  cases he : ensureComponents (base.getD basicStructure) with
  | none => rw [he] at hout; simp at hout
  | some spec0 =>
    rw [he] at hout
    simp only [Option.some.injEq] at hout
    have hfixed : ∀ k ∈ (schemasOf out).map Prod.fst, removeVersionS k = k := by
      rw [← hout]
      intro k hk
      rw [schemasOf_dropDup, schemasOf_convertRefs, keys_convertRefsMap] at hk
      refine keys_fold_fixed fragments spec0 ?_ hfrag k hk
      rcases schemasOf_ensure he with h0 | h0
      · rw [h0]; exact hbase
      · rw [h0]; intro k hk2; simp at hk2
    intro k1 h1 k2 h2 hne
    rw [hfixed k1 h1, hfixed k2 h2]
    exact hne

/-- `C2` counterexample — the merged schema map can contain two distinct
keys with the same canonical form: normalization is not idempotent, so an
inserted "clean" key may itself still carry a version token that a later
insertion collapses to a second, clashing key. -/
theorem C2_counterexample :
    (schemasOf ((mergeOpenapiFiles none
      [Yaml.map [("components", Yaml.map [("schemas", Yaml.map
        [("_v1_2_v9_9_9_3_", Yaml.str "a"), ("_v1_2_3_", Yaml.str "b")])])]]).getD
        Yaml.null)).map Prod.fst = ["_v1_2_3_", "_"] ∧
    ("_v1_2_3_" : String) ≠ "_" ∧
    removeVersionS "_v1_2_3_" = removeVersionS "_" := by
  refine ⟨by rfl, by decide, by rfl⟩

/-- Witness for `C2_no_duplicate_canonicals` at a concrete run with two
well-formed versioned fragment schemas. -/
theorem C2_no_duplicate_canonicals_witness :
    removeVersionS "Chassis_Chassis" ≠ removeVersionS "Power_Power" := by
  have h := C2_no_duplicate_canonicals none
    [Yaml.map [("components", Yaml.map [("schemas", Yaml.map
      [("Chassis_v1_0_0_Chassis", Yaml.str "c"), ("Power_v1_1_0_Power", Yaml.str "p")])])]]
    (Yaml.map [("openapi", Yaml.str "3.0.0"),
      ("info", Yaml.map [("title", Yaml.str "Redfish API"),
        ("version", Yaml.str "1.0.0"),
        ("description", Yaml.str "Merged Redfish API specification")]),
      ("paths", Yaml.map []),
      ("components", Yaml.map [("schemas", Yaml.map
        [("Chassis_Chassis", Yaml.str "c"), ("Power_Power", Yaml.str "p")])])])
    (by decide) (by decide) (by rfl)
  exact h "Chassis_Chassis" (by decide) "Power_Power" (by decide) (by decide)

theorem refsAvoidEntry_ne_ref {pat : List Char} {k : String} (v : Yaml)
    (h : ¬ k = "$ref") : refsAvoidEntry pat k v = refsAvoid pat v := by
  unfold refsAvoidEntry
  rw [if_neg h]

theorem refsAvoidMap_delKeyD {pat : List Char} (k : String) :
    ∀ {l : List (String × Yaml)}, refsAvoidMap pat l = true →
      refsAvoidMap pat (delKeyD l k) = true := by
  intro l
  induction l with
  | nil => intro h; exact h
  | cons kv t ih =>
    obtain ⟨k0, v⟩ := kv
    intro h
    rw [refsAvoidMap_cons] at h
    simp only [Bool.and_eq_true] at h
    simp only [delKeyD]
    by_cases h0 : k0 = k
    · rw [if_pos h0]
      exact h.2
    · rw [if_neg h0, refsAvoidMap_cons]
      simp only [Bool.and_eq_true]
      exact ⟨h.1, ih h.2⟩

theorem refsAvoidMap_lookupD {pat : List Char} {k : String} {v : Yaml} :
    ∀ {l : List (String × Yaml)}, refsAvoidMap pat l = true →
      lookupD l k = some v → refsAvoidEntry pat k v = true := by
  intro l
  induction l with
  | nil => intro _ hl; simp [lookupD] at hl
  | cons kv t ih =>
    obtain ⟨k0, w⟩ := kv
    intro h hl
    rw [refsAvoidMap_cons] at h
    simp only [Bool.and_eq_true] at h
    simp only [lookupD] at hl
    by_cases h0 : k0 = k
    · rw [if_pos h0] at hl
      simp only [Option.some.injEq] at hl
      subst h0
      rw [← hl]
      exact h.1
    · rw [if_neg h0] at hl
      exact ih h.2 hl

theorem refsAvoidMap_setKeyD {pat : List Char} {k : String} {v : Yaml} :
    ∀ {l : List (String × Yaml)}, refsAvoidMap pat l = true →
      refsAvoidEntry pat k v = true → refsAvoidMap pat (setKeyD l k v) = true := by
  intro l
  induction l with
  | nil =>
    intro h0 hv
    show refsAvoidMap pat [(k, v)] = true
    rw [refsAvoidMap_cons]
    simp [hv, h0]
  | cons kv t ih =>
    obtain ⟨k0, w⟩ := kv
    intro h hv
    rw [refsAvoidMap_cons] at h
    simp only [Bool.and_eq_true] at h
    simp only [setKeyD]
    by_cases h0 : k0 = k
    · rw [if_pos h0, refsAvoidMap_cons]
      subst h0
      simp [hv, h.2]
    · rw [if_neg h0, refsAvoidMap_cons]
      simp [h.1, ih h.2 hv]

/-- The trailing-slash collapse preserves marker-freedom of `$ref`
values. -/
theorem refsAvoid_dropDup {y : Yaml}
    (h : refsAvoid yamlSepSchemas y = true) :
    refsAvoid yamlSepSchemas (dropDupRedfishPath y) = true := by
  cases y with
  | map l =>
    simp only [dropDupRedfishPath]
    have hl : refsAvoidMap yamlSepSchemas l = true := h
    cases hp : lookupD l "paths" with
    | none => exact h
    | some v =>
      cases v with
      | map pm =>
        dsimp only
        by_cases hcond : (hasKeyD pm "/redfish/v1/" && hasKeyD pm "/redfish/v1") = true
        · rw [if_pos hcond]
          have hev := refsAvoidMap_lookupD hl hp
          rw [refsAvoidEntry_ne_ref _ (by decide)] at hev
          have hpm : refsAvoidMap yamlSepSchemas pm = true := hev
          show refsAvoidMap yamlSepSchemas
            (setKeyD l "paths" (.map (delKeyD pm "/redfish/v1/"))) = true
          refine refsAvoidMap_setKeyD hl ?_
          rw [refsAvoidEntry_ne_ref _ (by decide)]
          show refsAvoidMap yamlSepSchemas (delKeyD pm "/redfish/v1/") = true
          exact refsAvoidMap_delKeyD _ hpm
        · rw [if_neg hcond]
          exact h
      | seq l2 => exact h
      | str s => exact h
      | num n => exact h
      | bool b => exact h
      | null => exact h
  | seq l => exact h
  | str s => exact h
  | num n => exact h
  | bool b => exact h
  | null => exact h

/-- `C1` (corrected) — the merged output carries no `$ref` whose value
contains the external marker `.yaml#/components/schemas/`: every
file-qualified `components/schemas` pointer has been internalized.  (The
claim's stronger `.yaml#` form is refuted by `C1_counterexample`.) -/
theorem C1_no_external_pointers (base : Option Yaml) (fragments : List Yaml)
    (out : Yaml) (hout : mergeOpenapiFiles base fragments = some out) :
    refsAvoid yamlSepSchemas out = true := by
  unfold mergeOpenapiFiles at hout
  cases he : ensureComponents (base.getD basicStructure) with
  | none => rw [he] at hout; simp at hout
  | some spec0 =>
    rw [he] at hout
    simp only [Option.some.injEq] at hout
    rw [← hout]
    exact refsAvoid_dropDup (refsAvoid_convertRefs _)

/-- `C1` counterexample — a `$ref` of the form `Foo.yaml#/definitions/Bar`
(external, but not of the `components/schemas` shape) survives the merge
verbatim, so the merged output is not free of the substring `.yaml#`. -/
theorem C1_counterexample :
    (mergeOpenapiFiles none [Yaml.map [("paths", Yaml.map [("/x",
      Yaml.map [("$ref", Yaml.str "Foo.yaml#/definitions/Bar")])])]]).isSome = true ∧
    refsAvoid (String.toList ".yaml#")
      ((mergeOpenapiFiles none [Yaml.map [("paths", Yaml.map [("/x",
        Yaml.map [("$ref", Yaml.str "Foo.yaml#/definitions/Bar")])])]]).getD
        Yaml.null) = false :=
  ⟨by rfl, by rfl⟩

/-- Witness for `C1_no_external_pointers`: a run over one fragment holding
an external pointer, whose merged output is marker-free. -/
theorem C1_no_external_pointers_witness :
    refsAvoid yamlSepSchemas
      (Yaml.map [("openapi", Yaml.str "3.0.0"),
        ("info", Yaml.map [("title", Yaml.str "Redfish API"),
          ("version", Yaml.str "1.0.0"),
          ("description", Yaml.str "Merged Redfish API specification")]),
        ("paths", Yaml.map [("/x", Yaml.map [("$ref",
          Yaml.str "#/components/schemas/Resource_Health")])]),
        ("components", Yaml.map [("schemas", Yaml.map [])])]) = true :=
  C1_no_external_pointers none
    [Yaml.map [("paths", Yaml.map [("/x", Yaml.map [("$ref",
      Yaml.str "Resource.yaml#/components/schemas/Resource_v1_0_0_Health")])])]]
    _ (by rfl)

/-! ### Order dependence of the merge (`C4`) -/

/-- Fragment defining the versioned schema `X_v1_0_0_Y`. -/
def fragXv10 : Yaml :=
  .map [("components", .map [("schemas", .map [("X_v1_0_0_Y", .str "one")])])]

/-- Fragment defining the versioned schema `X_v1_1_0_Y`. -/
def fragXv11 : Yaml :=
  .map [("components", .map [("schemas", .map [("X_v1_1_0_Y", .str "two")])])]

/-- View an optional node as a string scalar. -/
def strValue : Option Yaml → Option String
  | some (.str s) => some s
  | _ => none

/-- `C4` — the merge output depends on the order in which `glob.glob`
lists the fragment files: the same two fragments in the two listing orders
yield different merged documents (`X_Y` holds the last-processed versioned
definition).  The discoverer sorts its listing, the merger does not. -/
theorem C4_merge_order_dependent :
    [fragXv10, fragXv11].Perm [fragXv11, fragXv10] ∧
    strValue (lookupD (schemasOf ((mergeOpenapiFiles none
      [fragXv10, fragXv11]).getD Yaml.null)) "X_Y") = some "two" ∧
    strValue (lookupD (schemasOf ((mergeOpenapiFiles none
      [fragXv11, fragXv10]).getD Yaml.null)) "X_Y") = some "one" ∧
    mergeOpenapiFiles none [fragXv10, fragXv11] ≠
      mergeOpenapiFiles none [fragXv11, fragXv10] := by
  refine ⟨List.Perm.swap fragXv11 fragXv10 [], by rfl, by rfl, ?_⟩
  intro h
  have h2 : (some "two" : Option String) = some "one" := by
    calc (some "two" : Option String)
        = strValue (lookupD (schemasOf ((mergeOpenapiFiles none
            [fragXv10, fragXv11]).getD Yaml.null)) "X_Y") := by rfl
      _ = strValue (lookupD (schemasOf ((mergeOpenapiFiles none
            [fragXv11, fragXv10]).getD Yaml.null)) "X_Y") := by rw [h]
      _ = some "one" := by rfl
  simp at h2

/-- `C6` counterexample — an absent base document is not fatal for the
merge: the run substitutes the basic skeleton and still produces merged
output (here, with no fragments, exactly the skeleton). -/
theorem C6_counterexample : mergeOpenapiFiles none [] = some basicStructure := by rfl

/-! ### The Namespace Discoverer (`metadata-generate.py`) -/

/-- Lexicographic (code-point) comparison on character lists, as Python
string comparison orders `sorted` listings. -/
def lexLe : List Char → List Char → Bool
  | [], _ => true
  | _ :: _, [] => false
  | x :: xs, y :: ys => if x < y then true else if x = y then lexLe xs ys else false

/-- Stable insertion of one name into a sorted list. -/
def insertLex (x : List Char) : List (List Char) → List (List Char)
  | [] => [x]
  | y :: t => if lexLe x y then x :: y :: t else y :: insertLex x t

/-- `sorted` on a list of names. -/
def sortLex (l : List (List Char)) : List (List Char) :=
  l.foldr insertLex []

/-- `extract_schema_info` (metadata-generate.py lines 11-20): parse a
filename against `(\w+)(\.v(\d+_\d+_\d+))?\.yaml$`; returns the schema
name and, when the optional group matched, the captured version digits. -/
def extractSchemaInfo (filename : List Char) : Option (List Char × Option (List Char)) :=
  let w := filename.takeWhile isWordChar
  let rest := filename.dropWhile isWordChar
  if w.isEmpty then none
  else if rest = (".yaml").toList then some (w, none)
  else
    match rest with
    | '.' :: 'v' :: r1 =>
      match takeDigits r1 with
      | (a :: d1, '_' :: r3) =>
        match takeDigits r3 with
        | (b :: d2, '_' :: r5) =>
          match takeDigits r5 with
          | (e :: d3, r6) =>
            if r6 = (".yaml").toList then
              some (w, some ((a :: d1) ++ '_' :: (b :: d2) ++ '_' :: (e :: d3)))
            else none
          | _ => none
        | _ => none
      | _ => none
    | _ => none

/-- Rightmost position of the list at which the version-token pattern
parses; returns the captured digit block.  (Greedy `\w+` backtracking
selects the rightmost token site inside a word run.) -/
def rightmostTokenAux : List Char → Option (List Char)
  | [] => none
  | c :: t =>
    match rightmostTokenAux t with
    | some d => some d
    | none => (matchVersionG (c :: t)).map Prod.fst

/-- `re.search(r'(\w+)_v(\d+_\d+_\d+)_', s)`, returning group 2: the
leftmost word run containing a token site after at least one word
character, with the greedy-`\w+` (rightmost) token site chosen. -/
def findVersionDigits : List Char → Option (List Char)
  | [] => none
  | c :: t =>
    if h : isWordChar c then
      match rightmostTokenAux (((c :: t).takeWhile isWordChar).drop 1) with
      | some d => some d
      | none => findVersionDigits ((c :: t).dropWhile isWordChar)
    else findVersionDigits t
termination_by s => s.length
decreasing_by
  · simp only [List.dropWhile_cons, h, if_true, List.length_cons]
    have := (List.dropWhile_sublist (p := isWordChar) (l := t)).length_le
    omega
  · simp

/-- Collect the distinct version digit blocks among a schema map's keys,
in first-seen order. -/
def collectVersioned (keys : List String) : List (List Char) :=
  keys.foldl (fun acc k =>
    match findVersionDigits k.toList with
    | some d => if d ∈ acc then acc else acc ++ [d]
    | none => acc) []

/-- `extract_versioned_namespaces` (lines 23-44): the sorted distinct
version tokens found among `components.schemas` keys; any parse failure
or shape mismatch yields `[]` (logged warning). -/
def extractVersionedNamespaces (content : Option Yaml) : List (List Char) :=
  match content with
  | some (.map m) =>
    match lookupD m "components" with
    | some (.map cm) =>
      match lookupD cm "schemas" with
      | some (.map sm) => sortLex (collectVersioned (sm.map Prod.fst))
      | _ => []
    | _ => []
  | _ => []

/-- One `<edmx:Include>`-level namespace entry: `(name, version?, alias?)`
(a 2-tuple when `nsAlias` is `none`, the 3-tuple RedfishExtensions form
otherwise). -/
structure NSEntry where
  name : List Char
  version : Option (List Char)
  nsAlias : Option (List Char)

/-- One value of the discovery index: the namespace entries and the source
filename. -/
structure SchemaData where
  namespaces : List NSEntry
  source_file : List Char

/-- Association-list lookup for the discovery index. -/
def lookupGen : List (List Char × SchemaData) → List Char → Option SchemaData
  | [], _ => none
  | (k, v) :: t, key => if k = key then some v else lookupGen t key

/-- Python `d[k] = v` on the discovery index. -/
def setGen : List (List Char × SchemaData) → List Char → SchemaData →
    List (List Char × SchemaData)
  | [], key, v => [(key, v)]
  | (k, w) :: t, key, v =>
    if k = key then (k, v) :: t else (k, w) :: setGen t key v

/-- The namespace list recorded for one file (lines 80-88): `(name, None)`
plus one entry per found version, with the fixed `RedfishExtensions`
override. -/
def namespacesFor (nm : List Char) (content : Option Yaml) : List NSEntry :=
  if nm = ("RedfishExtensions").toList then
    [⟨("RedfishExtensions").toList, some (("v1_0_0").toList), some (("Redfish").toList)⟩]
  else
    ⟨nm, none, none⟩ ::
      (extractVersionedNamespaces content).map (fun v => ⟨nm, some v, none⟩)

/-- The index entry built for one file. -/
def schemaDataFor (f : List Char × Option Yaml) : SchemaData :=
  match extractSchemaInfo f.1 with
  | some (nm, _) => ⟨namespacesFor nm f.2, f.1⟩
  | none => ⟨[], f.1⟩

/-- One iteration of the discovery loop (lines 64-95). -/
def discoverStep (acc : List (List Char × SchemaData)) (fn : List Char)
    (content : Option Yaml) : List (List Char × SchemaData) :=
  if ¬ ((".yaml").toList <:+ fn ∨ (".yml").toList <:+ fn) then acc
  else
    match extractSchemaInfo fn with
    | none => acc
    | some (nm, fver) =>
      if (lookupGen acc (nm ++ ("_v1.xml").toList)).isSome && fver.isNone then acc
      else setGen acc (nm ++ ("_v1.xml").toList) ⟨namespacesFor nm content, fn⟩

/-- The discovery loop over the (already sorted) file listing. -/
def discoverLoop : List (List Char × Option Yaml) → List (List Char × SchemaData) →
    List (List Char × SchemaData)
  | [], acc => acc
  | (fn, content) :: rest, acc => discoverLoop rest (discoverStep acc fn content)

/-- Stable insertion of a file by name. -/
def insertFile (x : List Char × Option Yaml) :
    List (List Char × Option Yaml) → List (List Char × Option Yaml)
  | [] => [x]
  | y :: t => if lexLe x.1 y.1 then x :: y :: t else y :: insertFile x t

/-- `sorted(os.listdir(...))`. -/
def sortFiles (l : List (List Char × Option Yaml)) : List (List Char × Option Yaml) :=
  l.foldr insertFile []

/-- `discover_schemas` (lines 47-102) as a function of the directory
contents: `none` models an absent `dmtf` directory (the function warns and
returns the empty index); file contents are `none` when unparseable. -/
def discoverSchemas (dir : Option (List (List Char × Option Yaml))) :
    List (List Char × SchemaData) :=
  match dir with
  | none => []
  | some files => discoverLoop (sortFiles files) []

/-- The scan-loop condition for a file to write (or attempt to write) the
index entry of a given target xml filename: yaml suffix, parseable name,
and the derived `<name>_v1.xml` equal to the target. -/
def matchesTarget (xml : List Char) (f : List Char × Option Yaml) : Bool :=
  (decide ((".yaml").toList <:+ f.1) || decide ((".yml").toList <:+ f.1)) &&
  match extractSchemaInfo f.1 with
  | some (nm, _) => decide (nm ++ ("_v1.xml").toList = xml)
  | none => false

/-- A scanned file whose filename carries an explicit `.vX_Y_Z` suffix. -/
def isVersionedFile (f : List Char × Option Yaml) : Bool :=
  match extractSchemaInfo f.1 with
  | some (_, some _) => true
  | _ => false

theorem lookupGen_setGen_self (l : List (List Char × SchemaData)) (k : List Char)
    (v : SchemaData) : lookupGen (setGen l k v) k = some v := by
  induction l with
  | nil => simp [setGen, lookupGen]
  | cons p t ih =>
    obtain ⟨k0, w⟩ := p
    by_cases h : k0 = k
    · simp [setGen, h, lookupGen]
    · simp [setGen, h, lookupGen, ih]

theorem lookupGen_setGen_ne (l : List (List Char × SchemaData)) (k k' : List Char)
    (v : SchemaData) (h : k' ≠ k) : lookupGen (setGen l k v) k' = lookupGen l k' := by
  induction l with
  | nil => simp [setGen, lookupGen, Ne.symm h]
  | cons p t ih =>
    obtain ⟨k0, w⟩ := p
    by_cases h0 : k0 = k
    · subst h0
      simp [setGen, lookupGen, Ne.symm h]
    · simp [setGen, h0, lookupGen, ih]

/-- What the scan loop records at one target key: the last versioned
matching file if any, otherwise the pre-existing entry, otherwise the
first matching file. -/
theorem discoverLoop_lookup (xml : List Char) (scan : List (List Char × Option Yaml)) :
    ∀ acc : List (List Char × SchemaData),
    lookupGen (discoverLoop scan acc) xml =
      match ((scan.filter (matchesTarget xml)).filter isVersionedFile).getLast? with
      | some f => some (schemaDataFor f)
      | none =>
        match lookupGen acc xml with
        | some v => some v
        | none => ((scan.filter (matchesTarget xml)).head?).map schemaDataFor := by
  induction scan with
  | nil =>
    intro acc
    cases h : lookupGen acc xml <;> simp [discoverLoop, h]
  | cons f rest ih =>
    intro acc
    obtain ⟨fn, content⟩ := f
    rw [discoverLoop]
    by_cases hsuf : ((".yaml").toList <:+ fn ∨ (".yml").toList <:+ fn)
    · cases hE : extractSchemaInfo fn with
      | none =>
        have hm : matchesTarget xml (fn, content) = false := by
          simp [matchesTarget, hE]
        have hstep : discoverStep acc fn content = acc := by
          rw [discoverStep, if_neg (not_not_intro hsuf), hE]
        rw [hstep, ih acc]
        simp [List.filter_cons, hm]
      | some p =>
        obtain ⟨nm, fver⟩ := p
        by_cases hx : nm ++ ("_v1.xml").toList = xml
        · have hm : matchesTarget xml (fn, content) = true := by
            simp only [matchesTarget, hE]
            rw [decide_eq_true hx]
            simp only [Bool.and_true]
            rcases hsuf with h1 | h1
            · rw [decide_eq_true h1]
              rfl
            · rw [decide_eq_true h1]
              simp
          cases fver with
          | some ver =>
            have hv : isVersionedFile (fn, content) = true := by
              simp [isVersionedFile, hE]
            have hstep : discoverStep acc fn content =
                setGen acc xml ⟨namespacesFor nm content, fn⟩ := by
              rw [discoverStep, if_neg (not_not_intro hsuf), hE]
              dsimp only
              rw [hx]
              simp
            rw [hstep, ih]
            have hsd : schemaDataFor (fn, content) = ⟨namespacesFor nm content, fn⟩ := by
              simp [schemaDataFor, hE]
            simp only [List.filter_cons, hm, hv, if_true, cond_true]
            cases hFL : (rest.filter (matchesTarget xml)).filter isVersionedFile with
            | nil => simp [lookupGen_setGen_self, hsd]
            | cons a b =>
              simp only [List.getLast?_cons_cons]
              cases hg : (a :: b : List (List Char × Option Yaml)).getLast? with
              | some g => rfl
              | none => simp at hg
          | none =>
            have hv : isVersionedFile (fn, content) = false := by
              simp [isVersionedFile, hE]
            cases hA : lookupGen acc xml with
            | some v =>
              have hstep : discoverStep acc fn content = acc := by
                rw [discoverStep, if_neg (not_not_intro hsuf), hE]
                dsimp only
                rw [hx, hA]
                simp
              rw [hstep, ih acc]
              simp [List.filter_cons, hm, hv, hA]
            | none =>
              have hstep : discoverStep acc fn content =
                  setGen acc xml ⟨namespacesFor nm content, fn⟩ := by
                rw [discoverStep, if_neg (not_not_intro hsuf), hE]
                dsimp only
                rw [hx, hA]
                simp
              rw [hstep, ih]
              have hsd : schemaDataFor (fn, content) = ⟨namespacesFor nm content, fn⟩ := by
                simp [schemaDataFor, hE]
              simp [List.filter_cons, hm, hv, hA, lookupGen_setGen_self, hsd]
        · have hm : matchesTarget xml (fn, content) = false := by
            simp only [matchesTarget, hE]
            rw [decide_eq_false hx]
            simp
          have hstep : lookupGen (discoverStep acc fn content) xml = lookupGen acc xml := by
            rw [discoverStep, if_neg (not_not_intro hsuf), hE]
            dsimp only
            have hne : xml ≠ nm ++ ("_v1.xml").toList := fun hcon => hx hcon.symm
            split
            · rfl
            · exact lookupGen_setGen_ne _ _ _ _ hne
          rw [ih (discoverStep acc fn content), hstep]
          simp [List.filter_cons, hm]
    · have hstep : discoverStep acc fn content = acc := by
        rw [discoverStep, if_pos hsuf]
      have hm : matchesTarget xml (fn, content) = false := by
        simp only [matchesTarget]
        rw [not_or] at hsuf
        have h1 : decide ((".yaml").toList <:+ fn) = false := decide_eq_false hsuf.1
        have h2 : decide ((".yml").toList <:+ fn) = false := decide_eq_false hsuf.2
        rw [h1, h2]
        rfl
      rw [hstep, ih acc]
      simp [List.filter_cons, hm]

/-- C10: in namespace discovery, for any directory contents and any target
xml filename, the recorded index entry at that target is the one derived
from the last versioned matching file in sorted filename order; when no
matching file is versioned it is the first matching file's entry (later
version-suffix-free files are skipped, versioned ones overwrite). -/
theorem C10_last_versioned_wins (xml : List Char)
    (files : List (List Char × Option Yaml)) :
    lookupGen (discoverSchemas (some files)) xml =
      match (((sortFiles files).filter (matchesTarget xml)).filter
          isVersionedFile).getLast? with
      | some f => some (schemaDataFor f)
      | none =>
          (((sortFiles files).filter (matchesTarget xml)).head?).map schemaDataFor := by
  have h := discoverLoop_lookup xml (sortFiles files) []
  simp only [lookupGen] at h
  exact h

/-! ### The Metadata Emitter (`metadata-generate.py`, emit side) -/

def refOpenPre : List Char :=
  ("    <edmx:Reference Uri=\"http://redfish.dmtf.org/schemas/v1/").toList

def includePre : List Char := ("        <edmx:Include Namespace=\"").toList

/-- `f"{ns_name}.{ns_version}" if ns_version else ns_name`. -/
def fullNamespace (ns : NSEntry) : List Char :=
  match ns.version with
  | some v => ns.name ++ '.' :: v
  | none => ns.name

/-- One `<edmx:Include .../>` manifest line (the three-element tuple form
carries an `Alias` attribute). -/
def includeLine (ns : NSEntry) : List Char :=
  match ns.nsAlias with
  | some al =>
    includePre ++ (fullNamespace ns ++ (("\" Alias=\"").toList ++ (al ++ ("\"/>").toList)))
  | none => includePre ++ (fullNamespace ns ++ ("\"/>").toList)

/-- The opening `<edmx:Reference ...>` manifest line for one target file. -/
def refOpenLine (xml : List Char) : List Char := refOpenPre ++ (xml ++ ("\">").toList)

def refCloseLine : List Char := ("    </edmx:Reference>").toList

/-- The reference block emitted for one index entry. -/
def refBlock (xml : List Char) (d : SchemaData) : List (List Char) :=
  refOpenLine xml :: (d.namespaces.map includeLine ++ [refCloseLine])

/-- `generate_schema_references` (lines 105-127): one block per index key,
in sorted key order. -/
def generateSchemaReferences (idx : List (List Char × SchemaData)) : List (List Char) :=
  ((sortLex (idx.map Prod.fst)).map (fun k =>
    match lookupGen idx k with
    | some d => refBlock k d
    | none => [])).flatten

def headerLines : List (List Char) :=
  [("<?xml version=\"1.0\" encoding=\"UTF-8\"?>").toList,
   ("<edmx:Edmx xmlns:edmx=\"http://docs.oasis-open.org/odata/ns/edmx\" Version=\"4.0\">").toList]

def footerLines : List (List Char) :=
  [("    <edmx:DataServices>").toList,
   ("        <Schema xmlns=\"http://docs.oasis-open.org/odata/ns/edm\" Namespace=\"Service\">").toList,
   ("            <EntityContainer Name=\"Service\" Extends=\"ServiceRoot.v1_19_0.ServiceContainer\"/>").toList,
   ("        </Schema>").toList,
   ("    </edmx:DataServices>").toList,
   ("</edmx:Edmx>").toList]

/-- `generate_metadata_xml` (lines 130-175) as a function of the index:
`none` models the `return False` path (no schemas, nothing written);
`some lines` models the successful write, the file content broken at
newlines. -/
def generateMetadataXml (idx : List (List Char × SchemaData)) :
    Option (List (List Char)) :=
  if idx.isEmpty then none
  else some (headerLines ++ generateSchemaReferences idx ++ footerLines)

/-- A manifest line opening a reference block. -/
def isRefOpen (l : List Char) : Bool := ("    <edmx:Reference ").toList.isPrefixOf l

/-- A manifest line holding an include directive. -/
def isInclude (l : List Char) : Bool := ("        <edmx:Include ").toList.isPrefixOf l

theorem prefix_append_left {p a t : List Char} (hl : p.length ≤ a.length) :
    p <+: a ++ t ↔ p <+: a := by
  constructor
  · intro h
    rw [List.prefix_iff_eq_take, List.take_append_of_le_length hl] at h
    rw [h]
    exact List.take_prefix _ _
  · intro h
    exact h.trans (List.prefix_append a t)

theorem isRefOpen_refOpenLine (xml : List Char) : isRefOpen (refOpenLine xml) = true := by
  simp only [isRefOpen, refOpenLine]
  rw [List.isPrefixOf_iff_prefix]
  have h0 : ("    <edmx:Reference ").toList <+: refOpenPre := by decide
  exact (prefix_append_left (by decide)).mpr h0

theorem isRefOpen_includeLine (ns : NSEntry) : isRefOpen (includeLine ns) = false := by
  simp only [isRefOpen, includeLine]
  cases ns.nsAlias with
  | some al =>
    rw [Bool.eq_false_iff]
    intro h
    rw [List.isPrefixOf_iff_prefix] at h
    exact absurd ((prefix_append_left (by decide)).mp h) (by decide)
  | none =>
    rw [Bool.eq_false_iff]
    intro h
    rw [List.isPrefixOf_iff_prefix] at h
    exact absurd ((prefix_append_left (by decide)).mp h) (by decide)

theorem isInclude_includeLine (ns : NSEntry) : isInclude (includeLine ns) = true := by
  simp only [isInclude, includeLine]
  cases ns.nsAlias with
  | some al =>
    rw [List.isPrefixOf_iff_prefix]
    have h0 : ("        <edmx:Include ").toList <+: includePre := by decide
    exact (prefix_append_left (by decide)).mpr h0
  | none =>
    rw [List.isPrefixOf_iff_prefix]
    have h0 : ("        <edmx:Include ").toList <+: includePre := by decide
    exact (prefix_append_left (by decide)).mpr h0

theorem isInclude_refOpenLine (xml : List Char) : isInclude (refOpenLine xml) = false := by
  simp only [isInclude, refOpenLine]
  rw [Bool.eq_false_iff]
  intro h
  rw [List.isPrefixOf_iff_prefix] at h
  exact absurd ((prefix_append_left (by decide)).mp h) (by decide)

theorem countP_refBlock_open (k : List Char) (d : SchemaData) :
    (refBlock k d).countP isRefOpen = 1 := by
  simp only [refBlock, List.countP_cons, List.countP_append, isRefOpen_refOpenLine]
  have h1 : (d.namespaces.map includeLine).countP isRefOpen = 0 := by
    rw [List.countP_eq_zero]
    intro a ha
    obtain ⟨ns, _, hns⟩ := List.mem_map.mp ha
    rw [← hns]
    simp [isRefOpen_includeLine]
  have h2 : isRefOpen refCloseLine = false := by decide
  simp [h1, h2]

theorem countP_refBlock_include (k : List Char) (d : SchemaData) :
    (refBlock k d).countP isInclude = d.namespaces.length := by
  simp only [refBlock, List.countP_cons, List.countP_append]
  have h1 : (d.namespaces.map includeLine).countP isInclude = d.namespaces.length := by
    rw [← List.length_map d.namespaces includeLine, List.countP_eq_length]
    intro a ha
    obtain ⟨ns, _, hns⟩ := List.mem_map.mp ha
    rw [← hns]
    exact isInclude_includeLine ns
  have h2 : isInclude refCloseLine = false := by decide
  simp [h1, h2, isInclude_refOpenLine]

theorem insertLex_perm (x : List Char) (l : List (List Char)) :
    List.Perm (insertLex x l) (x :: l) := by
  induction l with
  | nil => rfl
  | cons y t ih =>
    rw [insertLex]
    by_cases h : lexLe x y = true
    · rw [if_pos h]
    · rw [if_neg h]
      exact (ih.cons y).trans (List.Perm.swap x y t)

theorem sortLex_perm (l : List (List Char)) : List.Perm (sortLex l) l := by
  induction l with
  | nil => rfl
  | cons x t ih =>
    have : sortLex (x :: t) = insertLex x (sortLex t) := rfl
    rw [this]
    exact (insertLex_perm x (sortLex t)).trans (ih.cons x)

/-- Keys of a duplicate-free index each look up to their own entry, so a
per-entry numeric measure sums identically over keys and over entries. -/
theorem sum_lookup_blocks (F : List Char → SchemaData → Nat) :
    ∀ idx : List (List Char × SchemaData), (idx.map Prod.fst).Nodup →
    ((idx.map Prod.fst).map (fun k =>
      match lookupGen idx k with
      | some d => F k d
      | none => 0)).sum = (idx.map (fun e => F e.1 e.2)).sum := by
  intro idx
  induction idx with
  | nil => intro _; rfl
  | cons e t ih =>
    intro hnd
    obtain ⟨k, d⟩ := e
    simp only [List.map_cons, List.nodup_cons] at hnd ⊢
    have hhead : lookupGen ((k, d) :: t) k = some d := by
      simp [lookupGen]
    rw [hhead]
    have htail : ((t.map Prod.fst).map (fun k' =>
        match lookupGen ((k, d) :: t) k' with
        | some d' => F k' d'
        | none => 0)) = ((t.map Prod.fst).map (fun k' =>
        match lookupGen t k' with
        | some d' => F k' d'
        | none => 0)) := by
      apply List.map_congr_left
      intro a ha
      have hne : ¬ (k = a) := fun hc => hnd.1 (hc ▸ ha)
      simp [lookupGen, hne]
    rw [List.sum_cons, htail, ih hnd.2, List.sum_cons]

theorem sum_map_ones (l : List (List Char × SchemaData)) :
    (l.map (fun _ => (1 : Nat))).sum = l.length := by
  induction l with
  | nil => rfl
  | cons e t ih =>
    simp only [List.map_cons, List.sum_cons, List.length_cons, ih]
    omega

/-- C5: the metadata emitter fails (emits nothing) exactly when the
discovery index is empty; on a duplicate-free nonempty index it succeeds
and the manifest holds exactly one reference block per index entry: one
opening reference line per entry and one include line per namespace entry
of that entry. -/
theorem C5_emitter (idx : List (List Char × SchemaData))
    (hnd : (idx.map Prod.fst).Nodup) :
    (generateMetadataXml idx = none ↔ idx = []) ∧
    (∀ out, generateMetadataXml idx = some out →
      out.countP isRefOpen = idx.length ∧
      out.countP isInclude = (idx.map (fun e => e.2.namespaces.length)).sum) := by
  constructor
  · constructor
    · intro h
      by_cases he : idx.isEmpty
      · exact List.isEmpty_iff.mp he
      · rw [generateMetadataXml, if_neg he] at h
        exact absurd h (by simp)
    · intro h
      subst h
      rfl
  · intro out hout
    rw [generateMetadataXml] at hout
    by_cases he : idx.isEmpty
    · rw [if_pos he] at hout
      exact absurd hout (by simp)
    · rw [if_neg he] at hout
      injection hout with hout
      subst hout
      constructor
      · rw [List.countP_append, List.countP_append]
        have hh : headerLines.countP isRefOpen = 0 := by decide
        have hf : footerLines.countP isRefOpen = 0 := by decide
        rw [hh, hf]
        rw [generateSchemaReferences, List.countP_flatten, List.map_map]
        have hpt : ((sortLex (idx.map Prod.fst)).map
            (List.countP isRefOpen ∘ (fun k =>
              match lookupGen idx k with
              | some d => refBlock k d
              | none => []))) = ((sortLex (idx.map Prod.fst)).map (fun k =>
              match lookupGen idx k with
              | some _ => 1
              | none => 0)) := by
          apply List.map_congr_left
          intro k _
          simp only [Function.comp_apply]
          cases lookupGen idx k with
          | some d => exact countP_refBlock_open k d
          | none => rfl
        rw [hpt]
        have hperm := (sortLex_perm (idx.map Prod.fst)).map (fun k =>
          match lookupGen idx k with
          | some _ => (1 : Nat)
          | none => 0)
        rw [hperm.sum_eq]
        have hs := sum_lookup_blocks (fun _ _ => 1) idx hnd
        exact (Nat.zero_add _).trans ((Nat.add_zero _).trans (hs.trans (sum_map_ones idx)))
      · rw [List.countP_append, List.countP_append]
        have hh : headerLines.countP isInclude = 0 := by decide
        have hf : footerLines.countP isInclude = 0 := by decide
        rw [hh, hf]
        rw [generateSchemaReferences, List.countP_flatten, List.map_map]
        have hpt : ((sortLex (idx.map Prod.fst)).map
            (List.countP isInclude ∘ (fun k =>
              match lookupGen idx k with
              | some d => refBlock k d
              | none => []))) = ((sortLex (idx.map Prod.fst)).map (fun k =>
              match lookupGen idx k with
              | some d => d.namespaces.length
              | none => 0)) := by
          apply List.map_congr_left
          intro k _
          simp only [Function.comp_apply]
          cases lookupGen idx k with
          | some d => exact countP_refBlock_include k d
          | none => rfl
        rw [hpt]
        have hperm := (sortLex_perm (idx.map Prod.fst)).map (fun k =>
          match lookupGen idx k with
          | some d => d.namespaces.length
          | none => 0)
        rw [hperm.sum_eq]
        have hs := sum_lookup_blocks (fun _ d => d.namespaces.length) idx hnd
        exact (Nat.zero_add _).trans ((Nat.add_zero _).trans hs)

/-- A one-entry discovery index used to instantiate the emitter theorem. -/
def sampleIdx : List (List Char × SchemaData) :=
  [(("Chassis_v1.xml").toList,
    ⟨[⟨("Chassis").toList, none, none⟩,
      ⟨("Chassis").toList, some (("1_0_0").toList), none⟩],
     ("Chassis.yaml").toList⟩)]

theorem C5_emitter_witness :
    List.countP isRefOpen
        (headerLines ++ generateSchemaReferences sampleIdx ++ footerLines) = 1 ∧
    List.countP isInclude
        (headerLines ++ generateSchemaReferences sampleIdx ++ footerLines) = 2 := by
  have h := (C5_emitter sampleIdx (by decide)).2
      (headerLines ++ generateSchemaReferences sampleIdx ++ footerLines) (by rfl)
  exact ⟨h.1, h.2⟩

/-- C6 (amended): an absent base document is NOT fatal for the merger — it
substitutes the basic skeleton and produces merged output for every
fragment list; an absent input directory is non-fatal for discovery and
yields the empty index. -/
theorem C6_missing_input (frags : List Yaml) :
    (mergeOpenapiFiles none frags).isSome = true ∧ discoverSchemas none = [] :=
  ⟨rfl, rfl⟩

/-! ### The Authentication Annotator (`add-basic-auth.py`) -/

/-- The `BasicAuth` security scheme installed at lines 33-37. -/
def basicAuthScheme : Yaml :=
  .map [("type", .str "http"), ("scheme", .str "basic"),
        ("description", .str "HTTP Basic Authentication for Redfish API")]

/-- The `x-basic-auth` metadata block installed at lines 86-90. -/
def xBasicAuthMeta : Yaml :=
  .map [("default-auth", .str "BasicAuth"), ("redfish-compliant", .bool true),
        ("service-root-public", .bool true)]

/-- Python `key in node` on a YAML node: key membership for a mapping,
element equality for a sequence, substring test for a string; `none`
models the `TypeError` raised on a non-container node. -/
def pyContains (v : Yaml) (key : String) : Option Bool :=
  match v with
  | .map m => some (hasKeyD m key)
  | .seq items => some (items.any (fun it =>
      match it with
      | .str s => decide (s = key)
      | _ => false))
  | .str s => some (decide (key.toList <:+: s.toList))
  | _ => none

/-- Lines 28-37 applied to the `components` mapping: ensure
`securitySchemes` exists, then install `BasicAuth` when absent; a
non-mapping `securitySchemes` value makes the script raise before
writing. -/
def buildSecSchemes (cm : List (String × Yaml)) : Option (List (String × Yaml)) :=
  if hasKeyD cm "securitySchemes" then
    match lookupD cm "securitySchemes" with
    | some (.map ssm) =>
      some (setKeyD cm "securitySchemes"
        (.map (if hasKeyD ssm "BasicAuth" then ssm
               else setKeyD ssm "BasicAuth" basicAuthScheme)))
    | _ => none
  else
    some (setKeyD (setKeyD cm "securitySchemes" (.map [])) "securitySchemes"
      (.map (setKeyD [] "BasicAuth" basicAuthScheme)))

/-- Lines 26-40: the `components` / `securitySchemes` / `BasicAuth`
bootstrap on the whole document. -/
def componentsStep (l : List (String × Yaml)) : Option (List (String × Yaml)) :=
  match lookupD l "components" with
  | some (.map cm) =>
    (buildSecSchemes cm).map (fun cm2 => setKeyD l "components" (.map cm2))
  | some _ => none
  | none =>
    (buildSecSchemes []).map (fun cm2 =>
      setKeyD (setKeyD l "components" (.map [])) "components" (.map cm2))

/-- `isinstance(req, dict) and 'BasicAuth' in req` (line 47). -/
def reqHasBasicAuth : Yaml → Bool
  | .map m => hasKeyD m "BasicAuth"
  | _ => false

/-- `req == {}` under Python equality (line 48). -/
def isEmptyMap : Yaml → Bool
  | .map [] => true
  | _ => false

/-- Lines 50-56: the two conditional appends to the global security
list. -/
def securityItems (items : List Yaml) : List Yaml :=
  (if items.any reqHasBasicAuth then items
   else items ++ [.map [("BasicAuth", .seq [])]]) ++
  (if items.any isEmptyMap then [] else [.map []])

/-- `if 'security' not in spec: spec['security'] = []` (lines 43-44). -/
def ensureSecurityKey (l : List (String × Yaml)) : List (String × Yaml) :=
  if hasKeyD l "security" then l else setKeyD l "security" (.seq [])

/-- Lines 43-56: global security requirements; a non-sequence `security`
value makes the membership tests raise. -/
def securityStep (l : List (String × Yaml)) : Option (List (String × Yaml)) :=
  match lookupD (ensureSecurityKey l) "security" with
  | some (.seq items) =>
    some (setKeyD (ensureSecurityKey l) "security" (.seq (securityItems items)))
  | _ => none

def isPubVerb (m : String) : Bool :=
  m.toLower = "get" || m.toLower = "head" || m.toLower = "options"

def isProtVerb (m : String) : Bool :=
  m.toLower = "get" || m.toLower = "post" || m.toLower = "put" ||
  m.toLower = "patch" || m.toLower = "delete"

/-- Lines 65-69: one method of a public endpoint; a read-only verb without
a `security` key receives `[{}]`, a non-mapping method node where the
script would index raises. -/
def setPublicMethod : String × Yaml → Option (String × Yaml)
  | (m, v) =>
    if isPubVerb m then
      match pyContains v "security" with
      | none => none
      | some true => some (m, v)
      | some false =>
        match v with
        | .map mv => some (m, .map (setKeyD mv "security" (.seq [.map []])))
        | _ => none
    else some (m, v)

def processMethods : List (String × Yaml) → Option (List (String × Yaml))
  | [] => some []
  | e :: t =>
    match setPublicMethod e with
    | none => none
    | some e1 =>
      match processMethods t with
      | none => none
      | some t1 => some (e1 :: t1)

/-- Lines 63-69 for one public endpoint: absent endpoints are skipped; a
non-mapping endpoint node (which the script would iterate and then index)
is modeled as a failure. -/
def publicAt (pm : List (String × Yaml)) (e : String) : Option (List (String × Yaml)) :=
  match lookupD pm e with
  | none => some pm
  | some (.map mm) =>
    match processMethods mm with
    | none => none
    | some mm1 => some (setKeyD pm e (.map mm1))
  | some _ => none

/-- Lines 75-79: one method of a protected path. -/
def protectMethod : String × Yaml → Option (String × Yaml)
  | (m, v) =>
    if isProtVerb m then
      match pyContains v "security" with
      | none => none
      | some true => some (m, v)
      | some false =>
        match v with
        | .map mv =>
          some (m, .map (setKeyD mv "security" (.seq [.map [("BasicAuth", .seq [])]])))
        | _ => none
    else some (m, v)

def protectMethods : List (String × Yaml) → Option (List (String × Yaml))
  | [] => some []
  | e :: t =>
    match protectMethod e with
    | none => none
    | some e1 =>
      match protectMethods t with
      | none => none
      | some t1 => some (e1 :: t1)

def isPublicPath (p : String) : Bool :=
  p = "/redfish/v1/" || p = "/redfish/v1/$metadata"

/-- Lines 73-79 for one path item: public paths are passed over,
`path_spec.items()` on a non-mapping raises. -/
def protectPath : String × Yaml → Option (String × Yaml)
  | (p, v) =>
    if isPublicPath p then some (p, v)
    else
      match v with
      | .map ms =>
        match protectMethods ms with
        | none => none
        | some ms1 => some (p, .map ms1)
      | _ => none

def protectPaths : List (String × Yaml) → Option (List (String × Yaml))
  | [] => some []
  | e :: t =>
    match protectPath e with
    | none => none
    | some e1 =>
      match protectPaths t with
      | none => none
      | some t1 => some (e1 :: t1)

/-- Lines 59-82: endpoint security configuration; absent `paths` skips the
whole block, a non-mapping `paths` value makes the script raise. -/
def pathsStep (l : List (String × Yaml)) : Option (List (String × Yaml)) :=
  match lookupD l "paths" with
  | none => some l
  | some (.map pm) =>
    match publicAt pm "/redfish/v1/" with
    | none => none
    | some pm1 =>
      match publicAt pm1 "/redfish/v1/$metadata" with
      | none => none
      | some pm2 =>
        match protectPaths pm2 with
        | none => none
        | some pm3 => some (setKeyD l "paths" (.map pm3))
  | some _ => none

/-- Lines 85-93: the `x-basic-auth` metadata block. -/
def metaStep (l : List (String × Yaml)) : List (String × Yaml) :=
  if hasKeyD l "x-basic-auth" then l else setKeyD l "x-basic-auth" xBasicAuthMeta

/-- `add_basic_auth_to_existing_spec` (lines 8-100) as a function of the
loaded document: `some` is the document written back, `none` models the
run aborting before the write (an uncaught `TypeError`/`AttributeError`
on a malformed node, modeled conservatively as failure wherever the
script would index, iterate or mutate a non-mapping). -/
def addBasicAuth (spec : Yaml) : Option Yaml :=
  match spec with
  | .map l =>
    match componentsStep l with
    | none => none
    | some l1 =>
      match securityStep l1 with
      | none => none
      | some l2 =>
        match pathsStep l2 with
        | none => none
        | some l3 => some (.map (metaStep l3))
  | _ => none

theorem setKeyD_lookup_self : ∀ (l : List (String × Yaml)) (k : String) (v : Yaml),
    lookupD l k = some v → setKeyD l k v = l
  | [], k, v, h => by simp [lookupD] at h
  | (k0, w) :: t, k, v, h => by
    by_cases h0 : k0 = k
    · subst h0
      simp only [lookupD, if_pos rfl] at h
      injection h with h
      simp [setKeyD, h]
    · simp only [lookupD, if_neg h0] at h
      simp only [setKeyD, if_neg h0]
      rw [setKeyD_lookup_self t k v h]

/-- The shape the annotator leaves `components` in. -/
def compAnnotated (l : List (String × Yaml)) : Prop :=
  ∃ cm ssm, lookupD l "components" = some (.map cm) ∧
    lookupD cm "securitySchemes" = some (.map ssm) ∧ hasKeyD ssm "BasicAuth" = true

theorem buildSecSchemes_est (cm cm2 : List (String × Yaml))
    (h : buildSecSchemes cm = some cm2) :
    ∃ ssm, lookupD cm2 "securitySchemes" = some (.map ssm) ∧
      hasKeyD ssm "BasicAuth" = true := by
  rw [buildSecSchemes] at h
  by_cases hk : hasKeyD cm "securitySchemes" = true
  · rw [if_pos hk] at h
    cases hv : lookupD cm "securitySchemes" with
    | none => rw [hv] at h; exact absurd h (by simp)
    | some v =>
      rw [hv] at h
      cases v with
      | map ssm =>
        injection h with h
        subst h
        refine ⟨_, lookupD_setKeyD_self _ _ _, ?_⟩
        by_cases hb : hasKeyD ssm "BasicAuth" = true
        · rw [if_pos hb]; exact hb
        · rw [if_neg hb]
          simp [hasKeyD, lookupD_setKeyD_self]
      | str s => exact absurd h (by simp)
      | num n => exact absurd h (by simp)
      | bool b => exact absurd h (by simp)
      | null => exact absurd h (by simp)
      | seq items => exact absurd h (by simp)
  · rw [if_neg hk] at h
    injection h with h
    subst h
    exact ⟨_, lookupD_setKeyD_self _ _ _, rfl⟩

theorem buildSecSchemes_stab (cm ssm : List (String × Yaml))
    (h1 : lookupD cm "securitySchemes" = some (.map ssm))
    (h2 : hasKeyD ssm "BasicAuth" = true) :
    buildSecSchemes cm = some cm := by
  have hk : hasKeyD cm "securitySchemes" = true := by simp [hasKeyD, h1]
  rw [buildSecSchemes, if_pos hk, h1]
  dsimp only
  rw [if_pos h2, setKeyD_lookup_self cm _ _ h1]

theorem componentsStep_est (l l1 : List (String × Yaml))
    (h : componentsStep l = some l1) : compAnnotated l1 := by
  rw [componentsStep] at h
  cases hc : lookupD l "components" with
  | none =>
    rw [hc] at h
    injection h with h
    subst h
    exact ⟨_, _, lookupD_setKeyD_self _ _ _, by rfl, by rfl⟩
  | some v =>
    rw [hc] at h
    cases v with
    | map cm =>
      dsimp only at h
      cases hb : buildSecSchemes cm with
      | none => rw [hb] at h; exact absurd h (by simp)
      | some cm2 =>
        rw [hb] at h
        injection h with h
        subst h
        obtain ⟨ssm, hs1, hs2⟩ := buildSecSchemes_est cm cm2 hb
        exact ⟨cm2, ssm, lookupD_setKeyD_self _ _ _, hs1, hs2⟩
    | str s => exact absurd h (by simp)
    | num n => exact absurd h (by simp)
    | bool b => exact absurd h (by simp)
    | null => exact absurd h (by simp)
    | seq items => exact absurd h (by simp)

theorem componentsStep_stab (l : List (String × Yaml)) (h : compAnnotated l) :
    componentsStep l = some l := by
  obtain ⟨cm, ssm, h1, h2, h3⟩ := h
  rw [componentsStep, h1]
  dsimp only
  rw [buildSecSchemes_stab cm ssm h2 h3]
  dsimp only [Option.map]
  rw [setKeyD_lookup_self l _ _ h1]

theorem componentsStep_pres (l l1 : List (String × Yaml))
    (h : componentsStep l = some l1) (k : String) (hk : k ≠ "components") :
    lookupD l1 k = lookupD l k := by
  rw [componentsStep] at h
  cases hc : lookupD l "components" with
  | none =>
    rw [hc] at h
    cases hb : buildSecSchemes [] with
    | none => rw [hb] at h; exact absurd h (by simp)
    | some cm2 =>
      rw [hb] at h
      injection h with h
      subst h
      rw [lookupD_setKeyD_ne _ _ _ _ hk, lookupD_setKeyD_ne _ _ _ _ hk]
  | some v =>
    rw [hc] at h
    cases v with
    | map cm =>
      dsimp only at h
      cases hb : buildSecSchemes cm with
      | none => rw [hb] at h; exact absurd h (by simp)
      | some cm2 =>
        rw [hb] at h
        injection h with h
        subst h
        rw [lookupD_setKeyD_ne _ _ _ _ hk]
    | str s => exact absurd h (by simp)
    | num n => exact absurd h (by simp)
    | bool b => exact absurd h (by simp)
    | null => exact absurd h (by simp)
    | seq items => exact absurd h (by simp)

/-- The shape the annotator leaves the global `security` list in. -/
def secAnnotated (l : List (String × Yaml)) : Prop :=
  ∃ items, lookupD l "security" = some (.seq items) ∧
    items.any reqHasBasicAuth = true ∧ items.any isEmptyMap = true

theorem ensureSecurityKey_pres (l : List (String × Yaml)) (k : String)
    (hk : k ≠ "security") : lookupD (ensureSecurityKey l) k = lookupD l k := by
  rw [ensureSecurityKey]
  by_cases h : hasKeyD l "security" = true
  · rw [if_pos h]
  · rw [if_neg h, lookupD_setKeyD_ne _ _ _ _ hk]

theorem securityItems_spec (items : List Yaml) :
    (securityItems items).any reqHasBasicAuth = true ∧
    (securityItems items).any isEmptyMap = true := by
  rw [securityItems]
  constructor
  · rw [List.any_append]
    by_cases h : items.any reqHasBasicAuth = true
    · rw [if_pos h]
      simp [h]
    · rw [if_neg h]
      simp [List.any_append, reqHasBasicAuth, hasKeyD, lookupD]
  · rw [List.any_append]
    by_cases h : items.any isEmptyMap = true
    · by_cases h2 : items.any reqHasBasicAuth = true
      · rw [if_pos h2, if_pos h]
        simp [h]
      · rw [if_neg h2, if_pos h]
        simp [List.any_append, h]
    · rw [if_neg h]
      simp [isEmptyMap]

theorem securityStep_est (l l2 : List (String × Yaml))
    (h : securityStep l = some l2) :
    secAnnotated l2 ∧ ∀ k, k ≠ "security" → lookupD l2 k = lookupD l k := by
  rw [securityStep] at h
  cases hs : lookupD (ensureSecurityKey l) "security" with
  | none => rw [hs] at h; exact absurd h (by simp)
  | some v =>
    rw [hs] at h
    cases v with
    | seq items =>
      injection h with h
      subst h
      constructor
      · exact ⟨securityItems items, lookupD_setKeyD_self _ _ _,
          (securityItems_spec items).1, (securityItems_spec items).2⟩
      · intro k hk
        rw [lookupD_setKeyD_ne _ _ _ _ hk, ensureSecurityKey_pres l k hk]
    | str s => exact absurd h (by simp)
    | num n => exact absurd h (by simp)
    | bool b => exact absurd h (by simp)
    | null => exact absurd h (by simp)
    | map m => exact absurd h (by simp)

theorem securityStep_stab (l : List (String × Yaml)) (h : secAnnotated l) :
    securityStep l = some l := by
  obtain ⟨items, h1, h2, h3⟩ := h
  have hk : hasKeyD l "security" = true := by simp [hasKeyD, h1]
  have he : ensureSecurityKey l = l := by rw [ensureSecurityKey, if_pos hk]
  rw [securityStep, he, h1]
  dsimp only
  have hi : securityItems items = items := by
    rw [securityItems, if_pos h2, if_pos h3, List.append_nil]
  rw [hi, setKeyD_lookup_self l _ _ h1]

/-- Every read-only verb of a public endpoint carries a `security` key. -/
def methodsPubDone (mm : List (String × Yaml)) : Bool :=
  mm.all (fun e => !isPubVerb e.1 || decide (pyContains e.2 "security" = some true))

/-- Every write-capable verb of a protected path carries a `security`
key. -/
def methodsProtDone (ms : List (String × Yaml)) : Bool :=
  ms.all (fun e => !isProtVerb e.1 || decide (pyContains e.2 "security" = some true))

/-- Every non-public path item is a mapping whose verbs are secured. -/
def pathsProtDone (pm : List (String × Yaml)) : Bool :=
  pm.all (fun e => isPublicPath e.1 ||
    (match e.2 with
     | .map ms => methodsProtDone ms
     | _ => false))

/-- The public-endpoint invariant, phrased on a lookup result. -/
def pubOKv : Option Yaml → Prop
  | none => True
  | some (.map mm) => methodsPubDone mm = true
  | some _ => False

theorem setPublicMethod_est (m : String) (v : Yaml) (e1 : String × Yaml)
    (h : setPublicMethod (m, v) = some e1) :
    e1.1 = m ∧ (isPubVerb m = true → pyContains e1.2 "security" = some true) := by
  rw [setPublicMethod.eq_def] at h
  dsimp only at h
  by_cases hv : isPubVerb m = true
  · rw [if_pos hv] at h
    cases hp : pyContains v "security" with
    | none => rw [hp] at h; exact absurd h (by simp)
    | some b =>
      rw [hp] at h
      cases b with
      | true =>
        injection h with h
        subst h
        exact ⟨rfl, fun _ => hp⟩
      | false =>
        cases v with
        | map mv =>
          dsimp only at h
          injection h with h
          subst h
          refine ⟨rfl, fun _ => ?_⟩
          simp [pyContains, hasKeyD, lookupD_setKeyD_self]
        | str s => exact absurd h (by simp)
        | num n => exact absurd h (by simp)
        | bool b => exact absurd h (by simp)
        | null => exact absurd h (by simp)
        | seq items => exact absurd h (by simp)
  · rw [if_neg hv] at h
    injection h with h
    subst h
    exact ⟨rfl, fun hc => absurd hc hv⟩

theorem setPublicMethod_stab (m : String) (v : Yaml)
    (h : isPubVerb m = true → pyContains v "security" = some true) :
    setPublicMethod (m, v) = some (m, v) := by
  rw [setPublicMethod.eq_def]
  dsimp only
  by_cases hv : isPubVerb m = true
  · rw [if_pos hv, h hv]
  · rw [if_neg hv]

theorem processMethods_est : ∀ mm mm1 : List (String × Yaml),
    processMethods mm = some mm1 → methodsPubDone mm1 = true
  | [], mm1, h => by
    injection h with h
    subst h
    rfl
  | e :: t, mm1, h => by
    rw [processMethods] at h
    cases he : setPublicMethod e with
    | none => rw [he] at h; exact absurd h (by simp)
    | some e1 =>
      rw [he] at h
      cases ht : processMethods t with
      | none => rw [ht] at h; exact absurd h (by simp)
      | some t1 =>
        rw [ht] at h
        injection h with h
        subst h
        obtain ⟨m, v⟩ := e
        obtain ⟨h1, h2⟩ := setPublicMethod_est m v e1 he
        rw [methodsPubDone, List.all_cons]
        have htail := processMethods_est t t1 ht
        rw [methodsPubDone] at htail
        rw [htail, Bool.and_true]
        by_cases hv : isPubVerb e1.1 = true
        · rw [h1] at hv
          simp [h2 hv]
        · simp [Bool.not_eq_true] at hv
          simp [hv]

theorem processMethods_stab : ∀ mm : List (String × Yaml),
    methodsPubDone mm = true → processMethods mm = some mm
  | [], _ => rfl
  | (m, v) :: t, h => by
    rw [methodsPubDone, List.all_cons, Bool.and_eq_true] at h
    have h1 : isPubVerb m = true → pyContains v "security" = some true := by
      intro hv
      rcases Bool.or_eq_true_iff.mp h.1 with hc | hc
      · rw [hv] at hc; exact absurd hc (by simp)
      · exact of_decide_eq_true hc
    rw [processMethods, setPublicMethod_stab m v h1,
      processMethods_stab t (by rw [methodsPubDone]; exact h.2)]

theorem publicAt_est (pm : List (String × Yaml)) (e : String)
    (pm1 : List (String × Yaml)) (h : publicAt pm e = some pm1) :
    pubOKv (lookupD pm1 e) := by
  rw [publicAt] at h
  cases hc : lookupD pm e with
  | none =>
    rw [hc] at h
    injection h with h
    subst h
    rw [hc]
    trivial
  | some v =>
    rw [hc] at h
    cases v with
    | map mm =>
      dsimp only at h
      cases hm : processMethods mm with
      | none => rw [hm] at h; exact absurd h (by simp)
      | some mm1 =>
        rw [hm] at h
        injection h with h
        subst h
        rw [lookupD_setKeyD_self]
        exact processMethods_est mm mm1 hm
    | str s => exact absurd h (by simp)
    | num n => exact absurd h (by simp)
    | bool b => exact absurd h (by simp)
    | null => exact absurd h (by simp)
    | seq items => exact absurd h (by simp)

theorem publicAt_pres (pm : List (String × Yaml)) (e : String)
    (pm1 : List (String × Yaml)) (h : publicAt pm e = some pm1)
    (k : String) (hk : k ≠ e) : lookupD pm1 k = lookupD pm k := by
  rw [publicAt] at h
  cases hc : lookupD pm e with
  | none =>
    rw [hc] at h
    injection h with h
    subst h
    rfl
  | some v =>
    rw [hc] at h
    cases v with
    | map mm =>
      dsimp only at h
      cases hm : processMethods mm with
      | none => rw [hm] at h; exact absurd h (by simp)
      | some mm1 =>
        rw [hm] at h
        injection h with h
        subst h
        rw [lookupD_setKeyD_ne _ _ _ _ hk]
    | str s => exact absurd h (by simp)
    | num n => exact absurd h (by simp)
    | bool b => exact absurd h (by simp)
    | null => exact absurd h (by simp)
    | seq items => exact absurd h (by simp)

theorem publicAt_stab (pm : List (String × Yaml)) (e : String)
    (h : pubOKv (lookupD pm e)) : publicAt pm e = some pm := by
  rw [publicAt]
  cases hc : lookupD pm e with
  | none => rfl
  | some v =>
    rw [hc] at h
    cases v with
    | map mm =>
      dsimp only
      rw [processMethods_stab mm h]
      dsimp only
      rw [setKeyD_lookup_self pm _ _ hc]
    | str s => exact absurd h (by simp [pubOKv])
    | num n => exact absurd h (by simp [pubOKv])
    | bool b => exact absurd h (by simp [pubOKv])
    | null => exact absurd h (by simp [pubOKv])
    | seq items => exact absurd h (by simp [pubOKv])

theorem protectMethod_est (m : String) (v : Yaml) (e1 : String × Yaml)
    (h : protectMethod (m, v) = some e1) :
    e1.1 = m ∧ (isProtVerb m = true → pyContains e1.2 "security" = some true) := by
  rw [protectMethod.eq_def] at h
  dsimp only at h
  by_cases hv : isProtVerb m = true
  · rw [if_pos hv] at h
    cases hp : pyContains v "security" with
    | none => rw [hp] at h; exact absurd h (by simp)
    | some b =>
      rw [hp] at h
      cases b with
      | true =>
        injection h with h
        subst h
        exact ⟨rfl, fun _ => hp⟩
      | false =>
        cases v with
        | map mv =>
          dsimp only at h
          injection h with h
          subst h
          refine ⟨rfl, fun _ => ?_⟩
          simp [pyContains, hasKeyD, lookupD_setKeyD_self]
        | str s => exact absurd h (by simp)
        | num n => exact absurd h (by simp)
        | bool b => exact absurd h (by simp)
        | null => exact absurd h (by simp)
        | seq items => exact absurd h (by simp)
  · rw [if_neg hv] at h
    injection h with h
    subst h
    exact ⟨rfl, fun hc => absurd hc hv⟩

theorem protectMethod_stab (m : String) (v : Yaml)
    (h : isProtVerb m = true → pyContains v "security" = some true) :
    protectMethod (m, v) = some (m, v) := by
  rw [protectMethod.eq_def]
  dsimp only
  by_cases hv : isProtVerb m = true
  · rw [if_pos hv, h hv]
  · rw [if_neg hv]

theorem protectMethods_est : ∀ ms ms1 : List (String × Yaml),
    protectMethods ms = some ms1 → methodsProtDone ms1 = true
  | [], ms1, h => by
    injection h with h
    subst h
    rfl
  | e :: t, ms1, h => by
    rw [protectMethods] at h
    cases he : protectMethod e with
    | none => rw [he] at h; exact absurd h (by simp)
    | some e1 =>
      rw [he] at h
      cases ht : protectMethods t with
      | none => rw [ht] at h; exact absurd h (by simp)
      | some t1 =>
        rw [ht] at h
        injection h with h
        subst h
        obtain ⟨m, v⟩ := e
        obtain ⟨h1, h2⟩ := protectMethod_est m v e1 he
        rw [methodsProtDone, List.all_cons]
        have htail := protectMethods_est t t1 ht
        rw [methodsProtDone] at htail
        rw [htail, Bool.and_true]
        by_cases hv : isProtVerb e1.1 = true
        · rw [h1] at hv
          simp [h2 hv]
        · simp [Bool.not_eq_true] at hv
          simp [hv]

theorem protectMethods_stab : ∀ ms : List (String × Yaml),
    methodsProtDone ms = true → protectMethods ms = some ms
  | [], _ => rfl
  | (m, v) :: t, h => by
    rw [methodsProtDone, List.all_cons, Bool.and_eq_true] at h
    have h1 : isProtVerb m = true → pyContains v "security" = some true := by
      intro hv
      rcases Bool.or_eq_true_iff.mp h.1 with hc | hc
      · rw [hv] at hc; exact absurd hc (by simp)
      · exact of_decide_eq_true hc
    rw [protectMethods, protectMethod_stab m v h1,
      protectMethods_stab t (by rw [methodsProtDone]; exact h.2)]

theorem protectPath_est (p : String) (v : Yaml) (e1 : String × Yaml)
    (h : protectPath (p, v) = some e1) :
    e1.1 = p ∧ (isPublicPath p = true → e1.2 = v) ∧
    (isPublicPath p = false →
      ∃ ms1, e1.2 = .map ms1 ∧ methodsProtDone ms1 = true) := by
  rw [protectPath.eq_def] at h
  dsimp only at h
  by_cases hp : isPublicPath p = true
  · rw [if_pos hp] at h
    injection h with h
    subst h
    exact ⟨rfl, fun _ => rfl, fun hc => absurd hp (by simp [hc])⟩
  · rw [if_neg hp] at h
    cases v with
    | map ms =>
      dsimp only at h
      cases hm : protectMethods ms with
      | none => rw [hm] at h; exact absurd h (by simp)
      | some ms1 =>
        rw [hm] at h
        injection h with h
        subst h
        exact ⟨rfl, fun hc => absurd hc hp,
          fun _ => ⟨ms1, rfl, protectMethods_est ms ms1 hm⟩⟩
    | str s => exact absurd h (by simp)
    | num n => exact absurd h (by simp)
    | bool b => exact absurd h (by simp)
    | null => exact absurd h (by simp)
    | seq items => exact absurd h (by simp)

theorem protectPath_stab (p : String) (v : Yaml)
    (h : isPublicPath p = true ∨
      ∃ ms, v = .map ms ∧ methodsProtDone ms = true) :
    protectPath (p, v) = some (p, v) := by
  rw [protectPath.eq_def]
  dsimp only
  by_cases hp : isPublicPath p = true
  · rw [if_pos hp]
  · rw [if_neg hp]
    rcases h with h | ⟨ms, hv, hm⟩
    · exact absurd h hp
    · subst hv
      dsimp only
      rw [protectMethods_stab ms hm]

theorem protectPaths_est : ∀ pm pm1 : List (String × Yaml),
    protectPaths pm = some pm1 → pathsProtDone pm1 = true
  | [], pm1, h => by
    injection h with h
    subst h
    rfl
  | e :: t, pm1, h => by
    rw [protectPaths] at h
    cases he : protectPath e with
    | none => rw [he] at h; exact absurd h (by simp)
    | some e1 =>
      rw [he] at h
      cases ht : protectPaths t with
      | none => rw [ht] at h; exact absurd h (by simp)
      | some t1 =>
        rw [ht] at h
        injection h with h
        subst h
        obtain ⟨p, v⟩ := e
        obtain ⟨h1, _, h3⟩ := protectPath_est p v e1 he
        rw [pathsProtDone, List.all_cons]
        have htail := protectPaths_est t t1 ht
        rw [pathsProtDone] at htail
        rw [htail, Bool.and_true]
        by_cases hp : isPublicPath e1.1 = true
        · simp [hp]
        · simp only [Bool.not_eq_true] at hp
          rw [h1] at hp
          obtain ⟨ms1, hv1, hm1⟩ := h3 hp
          rw [h1, hp, hv1, Bool.false_or]
          dsimp only
          exact hm1

theorem protectPaths_stab : ∀ pm : List (String × Yaml),
    pathsProtDone pm = true → protectPaths pm = some pm
  | [], _ => rfl
  | (p, v) :: t, h => by
    rw [pathsProtDone, List.all_cons, Bool.and_eq_true] at h
    have h1 : isPublicPath p = true ∨ ∃ ms, v = .map ms ∧ methodsProtDone ms = true := by
      rcases Bool.or_eq_true_iff.mp h.1 with hc | hc
      · exact Or.inl hc
      · right
        cases v with
        | map ms => exact ⟨ms, rfl, hc⟩
        | str s => exact absurd hc (by simp)
        | num n => exact absurd hc (by simp)
        | bool b => exact absurd hc (by simp)
        | null => exact absurd hc (by simp)
        | seq items => exact absurd hc (by simp)
    rw [protectPaths, protectPath_stab p v h1,
      protectPaths_stab t (by rw [pathsProtDone]; exact h.2)]

theorem protectPaths_lookup_pub : ∀ pm pm1 : List (String × Yaml),
    protectPaths pm = some pm1 → ∀ p, isPublicPath p = true →
    lookupD pm1 p = lookupD pm p
  | [], pm1, h, p, _ => by
    injection h with h
    subst h
    rfl
  | (q, v) :: t, pm1, h, p, hp => by
    rw [protectPaths] at h
    cases he : protectPath (q, v) with
    | none => rw [he] at h; exact absurd h (by simp)
    | some e1 =>
      rw [he] at h
      cases ht : protectPaths t with
      | none => rw [ht] at h; exact absurd h (by simp)
      | some t1 =>
        rw [ht] at h
        injection h with h
        subst h
        obtain ⟨h1, h2, _⟩ := protectPath_est q v e1 he
        obtain ⟨q1, v1⟩ := e1
        dsimp only at h1 h2
        subst h1
        by_cases hq : q1 = p
        · subst hq
          rw [h2 hp]
          simp [lookupD]
        · simp only [lookupD, if_neg hq]
          exact protectPaths_lookup_pub t t1 ht p hp

/-- The shape the annotator leaves `paths` in. -/
def pathsAnnotated (l : List (String × Yaml)) : Prop :=
  lookupD l "paths" = none ∨
  ∃ pm, lookupD l "paths" = some (.map pm) ∧
    pubOKv (lookupD pm "/redfish/v1/") ∧
    pubOKv (lookupD pm "/redfish/v1/$metadata") ∧
    pathsProtDone pm = true

theorem pathsStep_est (l l3 : List (String × Yaml)) (h : pathsStep l = some l3) :
    pathsAnnotated l3 ∧ ∀ k, k ≠ "paths" → lookupD l3 k = lookupD l k := by
  rw [pathsStep] at h
  cases hc : lookupD l "paths" with
  | none =>
    rw [hc] at h
    injection h with h
    subst h
    exact ⟨Or.inl hc, fun _ _ => rfl⟩
  | some v =>
    rw [hc] at h
    cases v with
    | map pm =>
      dsimp only at h
      cases h1 : publicAt pm "/redfish/v1/" with
      | none => rw [h1] at h; exact absurd h (by simp)
      | some pm1 =>
        rw [h1] at h
        dsimp only at h
        cases h2 : publicAt pm1 "/redfish/v1/$metadata" with
        | none => rw [h2] at h; exact absurd h (by simp)
        | some pm2 =>
          rw [h2] at h
          dsimp only at h
          cases h3 : protectPaths pm2 with
          | none => rw [h3] at h; exact absurd h (by simp)
          | some pm3 =>
            rw [h3] at h
            injection h with h
            subst h
            refine ⟨Or.inr ⟨pm3, lookupD_setKeyD_self _ _ _, ?_, ?_, ?_⟩,
              fun k hk => lookupD_setKeyD_ne _ _ _ _ hk⟩
            · rw [protectPaths_lookup_pub pm2 pm3 h3 _ (by decide),
                publicAt_pres pm1 _ pm2 h2 _ (by decide)]
              exact publicAt_est pm "/redfish/v1/" pm1 h1
            · rw [protectPaths_lookup_pub pm2 pm3 h3 _ (by decide)]
              exact publicAt_est pm1 "/redfish/v1/$metadata" pm2 h2
            · exact protectPaths_est pm2 pm3 h3
    | str s => exact absurd h (by simp)
    | num n => exact absurd h (by simp)
    | bool b => exact absurd h (by simp)
    | null => exact absurd h (by simp)
    | seq items => exact absurd h (by simp)

theorem pathsStep_stab (l : List (String × Yaml)) (h : pathsAnnotated l) :
    pathsStep l = some l := by
  rw [pathsStep]
  rcases h with h | ⟨pm, h1, h2, h3, h4⟩
  · rw [h]
  · rw [h1]
    dsimp only
    rw [publicAt_stab pm _ h2]
    dsimp only
    rw [publicAt_stab pm _ h3]
    dsimp only
    rw [protectPaths_stab pm h4]
    dsimp only
    rw [setKeyD_lookup_self l _ _ h1]

theorem metaStep_pres (l : List (String × Yaml)) (k : String)
    (hk : k ≠ "x-basic-auth") : lookupD (metaStep l) k = lookupD l k := by
  rw [metaStep]
  by_cases h : hasKeyD l "x-basic-auth" = true
  · rw [if_pos h]
  · rw [if_neg h, lookupD_setKeyD_ne _ _ _ _ hk]

theorem metaStep_has (l : List (String × Yaml)) :
    hasKeyD (metaStep l) "x-basic-auth" = true := by
  rw [metaStep]
  by_cases h : hasKeyD l "x-basic-auth" = true
  · rw [if_pos h]
    exact h
  · rw [if_neg h]
    simp [hasKeyD, lookupD_setKeyD_self]

theorem metaStep_stab (l : List (String × Yaml))
    (h : hasKeyD l "x-basic-auth" = true) : metaStep l = l := by
  rw [metaStep, if_pos h]

theorem compAnnotated_of_lookup (l l' : List (String × Yaml))
    (he : lookupD l' "components" = lookupD l "components")
    (h : compAnnotated l) : compAnnotated l' := by
  obtain ⟨cm, ssm, h1, h2, h3⟩ := h
  exact ⟨cm, ssm, by rw [he, h1], h2, h3⟩

theorem secAnnotated_of_lookup (l l' : List (String × Yaml))
    (he : lookupD l' "security" = lookupD l "security")
    (h : secAnnotated l) : secAnnotated l' := by
  obtain ⟨items, h1, h2, h3⟩ := h
  exact ⟨items, by rw [he, h1], h2, h3⟩

theorem pathsAnnotated_of_lookup (l l' : List (String × Yaml))
    (he : lookupD l' "paths" = lookupD l "paths")
    (h : pathsAnnotated l) : pathsAnnotated l' := by
  rcases h with h | ⟨pm, h1, h2, h3, h4⟩
  · exact Or.inl (by rw [he, h])
  · exact Or.inr ⟨pm, by rw [he, h1], h2, h3, h4⟩

/-- C9: the authentication-annotation transform is idempotent — whenever
it succeeds on a document, running it again on the annotated output
succeeds and changes nothing. -/
theorem C9_auth_idempotent (spec out : Yaml) (h : addBasicAuth spec = some out) :
    addBasicAuth out = some out := by
  cases spec with
  | map l =>
    rw [addBasicAuth.eq_def] at h
    dsimp only at h
    cases h1 : componentsStep l with
    | none => rw [h1] at h; exact absurd h (by simp)
    | some l1 =>
      rw [h1] at h
      dsimp only at h
      cases h2 : securityStep l1 with
      | none => rw [h2] at h; exact absurd h (by simp)
      | some l2 =>
        rw [h2] at h
        dsimp only at h
        cases h3 : pathsStep l2 with
        | none => rw [h3] at h; exact absurd h (by simp)
        | some l3 =>
          rw [h3] at h
          dsimp only at h
          injection h with h
          subst h
          have hca1 : compAnnotated l1 := componentsStep_est l l1 h1
          obtain ⟨hsa2, hsp⟩ := securityStep_est l1 l2 h2
          obtain ⟨hpa3, hpp⟩ := pathsStep_est l2 l3 h3
          have hc_lf : lookupD (metaStep l3) "components" = lookupD l1 "components" := by
            rw [metaStep_pres l3 _ (by decide), hpp _ (by decide), hsp _ (by decide)]
          have hs_lf : lookupD (metaStep l3) "security" = lookupD l2 "security" := by
            rw [metaStep_pres l3 _ (by decide), hpp _ (by decide)]
          have hp_lf : lookupD (metaStep l3) "paths" = lookupD l3 "paths" :=
            metaStep_pres l3 _ (by decide)
          have hca : compAnnotated (metaStep l3) :=
            compAnnotated_of_lookup l1 _ hc_lf hca1
          have hsa : secAnnotated (metaStep l3) :=
            secAnnotated_of_lookup l2 _ hs_lf hsa2
          have hpa : pathsAnnotated (metaStep l3) :=
            pathsAnnotated_of_lookup l3 _ hp_lf hpa3
          rw [addBasicAuth.eq_def]
          dsimp only
          rw [componentsStep_stab _ hca]
          dsimp only
          rw [securityStep_stab _ hsa]
          dsimp only
          rw [pathsStep_stab _ hpa]
          dsimp only
          rw [metaStep_stab _ (metaStep_has l3)]
  | str s => exact absurd h (by simp [addBasicAuth])
  | num n => exact absurd h (by simp [addBasicAuth])
  | bool b => exact absurd h (by simp [addBasicAuth])
  | null => exact absurd h (by simp [addBasicAuth])
  | seq items => exact absurd h (by simp [addBasicAuth])

/-- The annotator's output on the empty document. -/
def annotatedEmpty : Yaml :=
  .map [("components", .map [("securitySchemes", .map [("BasicAuth", basicAuthScheme)])]),
        ("security", .seq [.map [("BasicAuth", .seq [])], .map []]),
        ("x-basic-auth", xBasicAuthMeta)]

theorem C9_auth_idempotent_witness :
    addBasicAuth annotatedEmpty = some annotatedEmpty :=
  C9_auth_idempotent (Yaml.map []) annotatedEmpty (by rfl)

end Redfish

